import Mathlib

/-!
Verification of the BlindKit ledger-and-verification engine.

This file gives a shallow embedding, in Lean 4, of the core algorithms of the
BlindKit toolkit (sources: `blindkit_v4_0.py`, `blindkit_v1_6.py`,
`blindkit_v1_7.py`, `blindkit_v1_7_1.py`) and proves or refutes the frozen
claims about them:

* checksum derivation (`compute_checks`, v4.0 and v1.6 variants) over real
  SHA-256 / SHA-1 implementations evaluated on UTF-8 bytes;
* the receipt-reconciliation engine (`cmd_reconcile_usage`, v4.0) and its
  idempotence;
* the file-operation trace of a reconciliation run (read / write / rename);
* registry issuance commands of v1.6 (`cmd_overlay_aliquot`,
  `cmd_overlay_behavior`, `cmd_overlay_physiology`, `cmd_inject_scan`) and the
  single-issuance / plan-approval invariants, together with the v4.0
  `cmd_overlay_aliquot` which performs no duplicate check;
* the hash-chained audit log (`append_log` / `cmd_verify_all`, v1.6) with the
  exact `json.dumps(..., sort_keys=True)` serialization;
* the Experimenter-visible anatomy manifest projection (`cmd_blind_anatomy`,
  v4.0);
* the ordering of blinded anatomy filenames (`blind_animal_folder`, v1.6);
* the crossref verifier with perceptual-hash fallback
  (`cmd_verify_anatomy_crossref`, v1.6);
* the unblinding bundle packager and verifier (`cmd_package_unblinding` /
  `cmd_verify_posthoc`, v4.0 / v1.7.1).

Machine integers are modelled as `Nat` with explicit reduction modulo `2 ^ 32`
where the Python code relies on 32-bit wraparound inside the hash primitives.
All definitions are executable.
-/

/-! ### 32-bit word arithmetic and byte strings -/

/-- Reduce a natural number to a 32-bit word. -/
def w32 (n : Nat) : Nat := n % 4294967296

/-- Rotate a 32-bit word right by `k` (for `0 < k < 32`). -/
def rotr32 (n k : Nat) : Nat := w32 ((n >>> k) ||| (n <<< (32 - k)))

/-- Rotate a 32-bit word left by `k` (for `0 < k < 32`). -/
def rotl32 (n k : Nat) : Nat := w32 ((n <<< k) ||| (n >>> (32 - k)))

/-- Bitwise complement of a 32-bit word. -/
def not32 (n : Nat) : Nat := n ^^^ 4294967295

/-- UTF-8 bytes of a string, as naturals; models Python `s.encode("utf-8")`. -/
def strBytes (s : String) : List Nat :=
  (s.data.flatMap String.utf8EncodeChar).map UInt8.toNat

/-- Big-endian 8-byte encoding of a natural, used for the SHA length field. -/
def be64 (n : Nat) : List Nat :=
  [n / 72057594037927936 % 256, n / 281474976710656 % 256,
   n / 1099511627776 % 256, n / 4294967296 % 256,
   n / 16777216 % 256, n / 65536 % 256, n / 256 % 256, n % 256]

/-- Merkle–Damgård padding shared by SHA-256 and SHA-1: append `128`,
zero-fill to 56 mod 64, then the 64-bit big-endian bit length. -/
def shaPad (msg : List Nat) : List Nat :=
  msg ++ [128] ++ List.replicate ((64 - ((msg.length + 9) % 64)) % 64) 0 ++ be64 (msg.length * 8)

/-- Split a byte list into 64-byte blocks; the `Nat` argument is the number of
blocks, kept structural so the kernel can evaluate it. -/
def blocksGo (l : List Nat) : Nat → List (List Nat)
  | 0 => []
  | n + 1 => l.take 64 :: blocksGo (l.drop 64) n

/-- All 64-byte blocks of a (padded) byte list. -/
def blocks64 (l : List Nat) : List (List Nat) := blocksGo l (l.length / 64)

/-- Big-endian 32-bit words of a 64-byte block. -/
def beWords : List Nat → List Nat
  | a :: b :: c :: d :: t => (a * 16777216 + b * 65536 + c * 256 + d) :: beWords t
  | _ => []

/-! ### SHA-256 -/

/-- SHA-256 round constants. -/
def sha256K : List Nat :=
  [1116352408, 1899447441, 3049323471, 3921009573, 961987163, 1508970993, 2453635748, 2870763221,
   3624381080, 310598401, 607225278, 1426881987, 1925078388, 2162078206, 2614888103, 3248222580,
   3835390401, 4022224774, 264347078, 604807628, 770255983, 1249150122, 1555081692, 1996064986,
   2554220882, 2821834349, 2952996808, 3210313671, 3336571891, 3584528711, 113926993, 338241895,
   666307205, 773529912, 1294757372, 1396182291, 1695183700, 1986661051, 2177026350, 2456956037,
   2730485921, 2820302411, 3259730800, 3345764771, 3516065817, 3600352804, 4094571909, 275423344,
   430227734, 506948616, 659060556, 883997877, 958139571, 1322822218, 1537002063, 1747873779,
   1955562222, 2024104815, 2227730452, 2361852424, 2428436474, 2756734187, 3204031479, 3329325298]

/-- Extend the 16 message-schedule words by `i` further words. -/
def sha256Extend (ws : List Nat) : Nat → List Nat
  | 0 => ws
  | i + 1 =>
    let ws := sha256Extend ws i
    let n := ws.length
    let w15 := ws.getD (n - 15) 0
    let w2 := ws.getD (n - 2) 0
    let s0 := (rotr32 w15 7) ^^^ (rotr32 w15 18) ^^^ (w15 >>> 3)
    let s1 := (rotr32 w2 17) ^^^ (rotr32 w2 19) ^^^ (w2 >>> 10)
    ws ++ [w32 (ws.getD (n - 16) 0 + s0 + ws.getD (n - 7) 0 + s1)]

/-- Working registers of the SHA-256 compression loop. -/
structure Sha256State where
  a : Nat
  b : Nat
  c : Nat
  d : Nat
  e : Nat
  f : Nat
  g : Nat
  h : Nat

/-- One SHA-256 compression round; `kw` pairs the round constant with the
schedule word. -/
def sha256Round (st : Sha256State) (kw : Nat × Nat) : Sha256State :=
  let s1 := (rotr32 st.e 6) ^^^ (rotr32 st.e 11) ^^^ (rotr32 st.e 25)
  let ch := (st.e &&& st.f) ^^^ ((not32 st.e) &&& st.g)
  let t1 := w32 (st.h + s1 + ch + kw.1 + kw.2)
  let s0 := (rotr32 st.a 2) ^^^ (rotr32 st.a 13) ^^^ (rotr32 st.a 22)
  let maj := (st.a &&& st.b) ^^^ (st.a &&& st.c) ^^^ (st.b &&& st.c)
  ⟨w32 (t1 + w32 (s0 + maj)), st.a, st.b, st.c, w32 (st.d + t1), st.e, st.f, st.g⟩

/-- Compress one 64-byte block into the running 8-word state. -/
def sha256Block (hs : List Nat) (blk : List Nat) : List Nat :=
  let ws := sha256Extend (beWords blk) 48
  let st0 : Sha256State :=
    ⟨hs.getD 0 0, hs.getD 1 0, hs.getD 2 0, hs.getD 3 0,
     hs.getD 4 0, hs.getD 5 0, hs.getD 6 0, hs.getD 7 0⟩
  let st := (sha256K.zip ws).foldl sha256Round st0
  [w32 (hs.getD 0 0 + st.a), w32 (hs.getD 1 0 + st.b), w32 (hs.getD 2 0 + st.c),
   w32 (hs.getD 3 0 + st.d), w32 (hs.getD 4 0 + st.e), w32 (hs.getD 5 0 + st.f),
   w32 (hs.getD 6 0 + st.g), w32 (hs.getD 7 0 + st.h)]

/-- SHA-256 digest of a byte list, as eight 32-bit words. -/
def sha256Words (msg : List Nat) : List Nat :=
  (blocks64 (shaPad msg)).foldl sha256Block
    [1779033703, 3144134277, 1013904242, 2773480762, 1359893119, 2600822924, 528734635, 1541459225]

/-- Lowercase hexadecimal digit. -/
def hexDigitLower (n : Nat) : Char :=
  if n < 10 then Char.ofNat (48 + n) else Char.ofNat (87 + n)

/-- Eight lowercase hex characters of a 32-bit word. -/
def hex8 (n : Nat) : List Char :=
  [hexDigitLower (n / 268435456 % 16), hexDigitLower (n / 16777216 % 16),
   hexDigitLower (n / 1048576 % 16), hexDigitLower (n / 65536 % 16),
   hexDigitLower (n / 4096 % 16), hexDigitLower (n / 256 % 16),
   hexDigitLower (n / 16 % 16), hexDigitLower (n % 16)]

/-- Lowercase SHA-256 hex digest of a byte list; models
`hashlib.sha256(b).hexdigest()`. -/
def sha256HexB (msg : List Nat) : String :=
  ⟨(sha256Words msg).flatMap hex8⟩

/-- Model of `sha256_str` (all versions): SHA-256 hex digest of the UTF-8
encoding of a string. -/
def sha256_str (s : String) : String := sha256HexB (strBytes s)

/-! ### SHA-1 -/

/-- Extend the 16 SHA-1 schedule words by `i` further words. -/
def sha1Extend (ws : List Nat) : Nat → List Nat
  | 0 => ws
  | i + 1 =>
    let ws := sha1Extend ws i
    let n := ws.length
    ws ++ [rotl32 ((ws.getD (n - 3) 0) ^^^ (ws.getD (n - 8) 0) ^^^
                   (ws.getD (n - 14) 0) ^^^ (ws.getD (n - 16) 0)) 1]

/-- Working registers of the SHA-1 compression loop. -/
structure Sha1State where
  a : Nat
  b : Nat
  c : Nat
  d : Nat
  e : Nat

/-- One SHA-1 compression round; `iw` pairs the round index with the schedule
word. -/
def sha1Round (st : Sha1State) (iw : Nat × Nat) : Sha1State :=
  let i := iw.1
  let f :=
    if i < 20 then (st.b &&& st.c) ||| ((not32 st.b) &&& st.d)
    else if i < 40 then st.b ^^^ st.c ^^^ st.d
    else if i < 60 then (st.b &&& st.c) ||| (st.b &&& st.d) ||| (st.c &&& st.d)
    else st.b ^^^ st.c ^^^ st.d
  let k :=
    if i < 20 then 1518500249
    else if i < 40 then 1859775393
    else if i < 60 then 2400959708
    else 3395469782
  ⟨w32 (rotl32 st.a 5 + f + st.e + k + iw.2), st.a, rotl32 st.b 30, st.c, st.d⟩

/-- Compress one 64-byte block into the running 5-word SHA-1 state. -/
def sha1Block (hs : List Nat) (blk : List Nat) : List Nat :=
  let ws := sha1Extend (beWords blk) 64
  let st0 : Sha1State := ⟨hs.getD 0 0, hs.getD 1 0, hs.getD 2 0, hs.getD 3 0, hs.getD 4 0⟩
  let st := ((List.range 80).zip ws).foldl sha1Round st0
  [w32 (hs.getD 0 0 + st.a), w32 (hs.getD 1 0 + st.b), w32 (hs.getD 2 0 + st.c),
   w32 (hs.getD 3 0 + st.d), w32 (hs.getD 4 0 + st.e)]

/-- SHA-1 digest of a byte list, as five 32-bit words. -/
def sha1Words (msg : List Nat) : List Nat :=
  (blocks64 (shaPad msg)).foldl sha1Block
    [1732584193, 4023233417, 2562383102, 271733878, 3285377520]

/-- Lowercase SHA-1 hex digest of a byte list. -/
def sha1HexB (msg : List Nat) : String :=
  ⟨(sha1Words msg).flatMap hex8⟩

/-- SHA-1 hex digest of the UTF-8 encoding of a string. -/
def sha1_str (s : String) : String := sha1HexB (strBytes s)

/-! ### Checksum function (`compute_checks`) -/

/-- Uppercase of a string, character by character; models Python `.upper()`
on the ASCII hex digests it is applied to. -/
def upperStr (s : String) : String := String.mk (s.data.map Char.toUpper)

/-- Model of `compute_checks` from `blindkit_v4_0.py` (lines 381-387): the
uppercased SHA-256 and SHA-1 hex digests of `dummy + animal + stage`, truncated
to 2 characters for VIRAL, 4 for BEHAVIOR and 2 otherwise. -/
def compute_checks (dummy animal stage : String) : String × String :=
  let base := dummy ++ animal ++ stage
  let c1 := upperStr (sha256_str base)
  let c2 := upperStr (sha1_str base)
  if stage = "VIRAL" then (c1.take 2, c2.take 2)
  else if stage = "BEHAVIOR" then (c1.take 4, c2.take 4)
  else (c1.take 2, c2.take 2)

/-- Model of `check_lengths` from `blindkit_v1_6.py` (lines 83-84): `(2, 2)`
for VIRAL, `(4, 4)` otherwise. -/
def check_lengths (stage : String) : Nat × Nat :=
  if upperStr stage = "VIRAL" then (2, 2) else (4, 4)

/-- Model of `compute_checks` from `blindkit_v1_6.py` (lines 86-91), which
truncates to `check_lengths stage`. -/
def compute_checks_v1_6 (dummy animal stage : String) : String × String :=
  let base := dummy ++ animal ++ stage
  let c1 := upperStr (sha256_str base)
  let c2 := upperStr (sha1_str base)
  (c1.take (check_lengths stage).1, c2.take (check_lengths stage).2)

/-! ### Label registry and receipts (v4.0, `cmd_reconcile_usage`) -/

/-- Registry entry as appended by the v4.0 overlay commands
(`blindkit_v4_0.py`, lines 422-424, 674-676, 692-694) and mutated by
`cmd_reconcile_usage` (line 771).  Keys absent from a JSON record
(`ts_inject`, `inject_photo_hash` before reconciliation) are `none`. -/
structure Entry where
  ts_overlay : String
  animal : String
  stage : String
  session : Option Nat
  dummy : String
  check1 : String
  check2 : String
  syringe_id : String
  label_id : String
  status : String
  ts_inject : Option String
  inject_photo_hash : Option String
  deriving Repr, DecidableEq

/-- Injection receipt as written by `cmd_inject_scan`
(`blindkit_v4_0.py`, lines 730-741). -/
structure Receipt where
  ts_inject : String
  animal : String
  stage : String
  session : Option Nat
  dummy : String
  check1 : String
  check2 : String
  label_id : String
  syringe_id : String
  photo_hash : String
  deriving Repr, DecidableEq

/-- Matching predicate of `cmd_reconcile_usage` (`blindkit_v4_0.py`,
lines 762-764): status `issued` or `used`, and equal composite key. -/
def reconMatch (r : Receipt) (e : Entry) : Bool :=
  (e.status == "issued" || e.status == "used") && e.animal == r.animal && e.stage == r.stage
    && e.session == r.session && e.dummy == r.dummy && e.label_id == r.label_id

/-- Checksum re-verification of a receipt (`blindkit_v4_0.py`,
lines 768-769): `compute_checks` on the receipt fields must reproduce the
transcribed check codes. -/
def receiptChecksOK (r : Receipt) : Bool :=
  (compute_checks r.dummy r.animal r.stage).1 == r.check1
    && (compute_checks r.dummy r.animal r.stage).2 == r.check2

/-- Mutation applied to a matched entry (`blindkit_v4_0.py`, line 771). -/
def updEntry (e : Entry) (r : Receipt) : Entry :=
  { e with status := "used", ts_inject := some r.ts_inject,
           inject_photo_hash := some r.photo_hash }

/-- Apply a function to the element at index `i`, leaving the list unchanged
if the index is out of range. -/
def updateAt (i : Nat) (f : α → α) : List α → List α
  | [] => []
  | x :: t =>
    match i with
    | 0 => f x :: t
    | i + 1 => x :: updateAt i f t

/-- Processing of one receipt by `cmd_reconcile_usage` (`blindkit_v4_0.py`,
lines 758-772): find the first matching entry (the Python loop breaks at the
first match); with no match, or with a check mismatch, the registry is left
untouched; otherwise the matched entry is marked used. -/
def stepReceipt (reg : List Entry) (r : Receipt) : List Entry :=
  match reg.findIdx? (reconMatch r) with
  | none => reg
  | some i => if receiptChecksOK r then updateAt i (fun e => updEntry e r) reg else reg

/-- Registry contents produced by one reconciliation run over the (sorted)
receipt list (`blindkit_v4_0.py`, lines 749-773). -/
def reconcileEntries (reg : List Entry) (rs : List Receipt) : List Entry :=
  rs.foldl stepReceipt reg

/-- Issue counters of a reconciliation run (`blindkit_v4_0.py`,
lines 757-772): receipts seen, entries updated, issues. -/
def reconcileCounters (reg : List Entry) (rs : List Receipt) : Nat × Nat × Nat :=
  (rs.foldl
    (fun acc r =>
      let reg := acc.1
      let counted :=
        match reg.findIdx? (reconMatch r) with
        | none => (acc.2.1, acc.2.2.1, acc.2.2.2 + 1)
        | some _ =>
          if receiptChecksOK r then (acc.2.1 + 1, acc.2.2.1 + 1, acc.2.2.2)
          else (acc.2.1, acc.2.2.1, acc.2.2.2 + 1)
      (stepReceipt reg r, counted))
    (reg, (0, 0, 0))).2

/-! ### Reconciliation as a sequence of index writes

The supporting notions below re-express one reconciliation run as a list of
"writes" (matched index, receipt) determined by the match profile of the
starting registry; they carry the idempotence proof. -/

/-- Match-relevant projection of an entry: status admissibility plus the
composite key.  `stepReceipt` never changes this projection. -/
structure EntryProj where
  ok : Bool
  animal : String
  stage : String
  session : Option Nat
  dummy : String
  label_id : String
  deriving Repr, DecidableEq

/-- Projection of an entry to its match-relevant fields. -/
def projEntry (e : Entry) : EntryProj :=
  ⟨e.status == "issued" || e.status == "used", e.animal, e.stage, e.session, e.dummy, e.label_id⟩

/-- The matching predicate factored through the projection. -/
def projMatch (r : Receipt) (p : EntryProj) : Bool :=
  p.ok && p.animal == r.animal && p.stage == r.stage
    && p.session == r.session && p.dummy == r.dummy && p.label_id == r.label_id

/-- A pending write: the index of the matched entry and the receipt whose
fields are copied into it. -/
def RWrite : Type := Nat × Receipt

/-- Apply one write to the registry. -/
def applyW (l : List Entry) (w : RWrite) : List Entry :=
  updateAt w.1 (fun e => updEntry e w.2) l

/-- Apply a list of writes in order. -/
def applyAll (ws : List RWrite) (l : List Entry) : List Entry :=
  ws.foldl applyW l

/-- Writes performed by a run, computed from the match profile `P` of the
starting registry. -/
def writesFor (P : List EntryProj) (rs : List Receipt) : List RWrite :=
  rs.filterMap
    (fun r =>
      match P.findIdx? (projMatch r) with
      | none => none
      | some i => if receiptChecksOK r then some (i, r) else none)

/-- Whether some write in the list targets index `i`. -/
def hasWriteAt (ws : List RWrite) (i : Nat) : Bool :=
  ws.any (fun w => w.1 == i)

/-! ### Reconciliation run as a file-operation trace (v4.0) -/

/-- File-system operations relevant to the atomicity claim.  A `write`
carries the registry content it stores. -/
inductive FsOp where
  | read (path : String)
  | write (path : String) (reg : List Entry)
  | rename (src dst : String)
  deriving Repr, DecidableEq

/-- Whether an operation is a write. -/
def FsOp.isWrite : FsOp → Bool
  | .write _ _ => true
  | _ => false

/-- Whether an operation is a rename. -/
def FsOp.isRename : FsOp → Bool
  | .rename _ _ => true
  | _ => false

/-- Trace of `cmd_reconcile_usage` (`blindkit_v4_0.py`, lines 749-775): one
read of the registry file, one read per receipt file, and a single final
`write_text` of the updated registry back to the same path — there is no
temporary file and no rename in the source. -/
def reconcileRun (regPath : String) (reg0 : List Entry) (receipts : List (String × Receipt)) :
    List Entry × List FsOp :=
  let looped := receipts.foldl
    (fun acc p => (stepReceipt acc.1 p.2, acc.2 ++ [FsOp.read p.1]))
    (reg0, [FsOp.read regPath])
  (looped.1, looped.2 ++ [FsOp.write regPath looped.1])

/-! ### Label registry issuance (v1.6) -/

/-- Registry entry as created by the v1.6 overlay commands
(`blindkit_v1_6.py`, lines 539-542, 564-567, 595-598): `ts_inject` and
`inject_photo_hash` are present from creation as empty strings. -/
structure EntryL where
  ts_overlay : String
  animal : String
  stage : String
  session : Option Nat
  dummy : String
  check1 : String
  check2 : String
  syringe_id : String
  label_id : String
  status : String
  ts_inject : String
  inject_photo_hash : String
  deriving Repr, DecidableEq

/-- Model of `any_issued_for_stage` (`blindkit_v1_6.py`, lines 175-179):
entries of an animal and stage, optionally narrowed to one session; the
status is not consulted. -/
def any_issued_for_stage (reg : List EntryL) (animal stage : String)
    (session : Option Nat := none) : List EntryL :=
  let res := reg.filter (fun e => e.animal == animal && e.stage == stage)
  match session with
  | none => res
  | some s => res.filter (fun e => e.session == some s)

/-- Model of `first_issued_unused_match` (`blindkit_v1_6.py`,
lines 181-187) as the index of the first entry matched, if any. -/
def firstIssuedIdx (reg : List EntryL) (animal stage dummy label_id : String)
    (session : Option Nat) : Option Nat :=
  reg.findIdx?
    (fun e =>
      e.animal == animal && e.stage == stage && e.dummy == dummy && e.label_id == label_id
        && e.status == "issued" && (session == none || e.session == session))

/-- Behavior plan: for each animal, the planned `(session, agent)` rows
(`behavior_plan.json` `assignments`, `blindkit_v1_6.py`, lines 211-215). -/
def BPlan : Type := List (String × List (Nat × String))

/-- Physiology plan: animal to agent (`physiology_plan.json` `assignments`,
`blindkit_v1_6.py`, line 257). -/
def PPlan : Type := List (String × String)

/-- Planned session rows of an animal, `plan["assignments"].get(animal, [])`. -/
def planRows (bp : BPlan) (animal : String) : List (Nat × String) :=
  ((bp.find? (fun p => p.1 == animal)).map (fun p => p.2)).getD []

/-- Model of the session-legality test of `cmd_overlay_behavior`
(`blindkit_v1_6.py`, line 524): some planned row has this session number. -/
def sessionPlanned (bp : BPlan) (animal : String) (session : Nat) : Bool :=
  (planRows bp animal).any (fun r => r.1 == session)

/-- Model of `cmd_overlay_behavior` (`blindkit_v1_6.py`, lines 513-545).
`rand` and `label_id` stand for the `os.urandom` draws; interactive prompts
are parameters.  An invalid session or an unplanned `(animal, session)`
returns the registry unchanged; otherwise the issued entry is appended. -/
def overlayBehaviorL (bp : BPlan) (reg : List EntryL)
    (animal : String) (session : Nat) (syringe_id rand label_id ts : String) : List EntryL :=
  if !(session == 1 || session == 2 || session == 3 || session == 4) then reg
  else if !sessionPlanned bp animal session then reg
  else
    let dummy := "BEH" ++ toString session ++ "-" ++ rand
    let c := compute_checks_v1_6 dummy animal "BEHAVIOR"
    reg ++ [⟨ts, animal, "BEHAVIOR", some session, dummy, c.1, c.2, syringe_id, label_id,
             "issued", "", ""⟩]

/-- Model of `cmd_overlay_aliquot` (`blindkit_v1_6.py`, lines 547-570): a
VIRAL issuance is rejected whenever the animal already has any VIRAL entry,
regardless of its status; otherwise the issued entry is appended. -/
def overlayAliquotL (reg : List EntryL)
    (animal : String) (container_id micro label_id ts : String) : List EntryL :=
  if !(any_issued_for_stage reg animal "VIRAL").isEmpty then reg
  else
    let dummy := "VIR-" ++ micro
    let c := compute_checks_v1_6 dummy animal "VIRAL"
    reg ++ [⟨ts, animal, "VIRAL", none, dummy, c.1, c.2, container_id, label_id,
             "issued", "", ""⟩]

/-- Model of `cmd_overlay_physiology` (`blindkit_v1_6.py`, lines 572-601):
rejected if the animal already has a PHYSIOLOGY entry or has no (truthy)
planned agent; otherwise the issued entry is appended. -/
def overlayPhysiologyL (pp : PPlan) (reg : List EntryL)
    (animal : String) (syringe_id rand label_id ts : String) : List EntryL :=
  if !(any_issued_for_stage reg animal "PHYSIOLOGY").isEmpty then reg
  else
    match pp.find? (fun p => p.1 == animal) with
    | none => reg
    | some p =>
      if p.2 == "" then reg
      else
        let dummy := "PHY-" ++ rand
        let c := compute_checks_v1_6 dummy animal "PHYSIOLOGY"
        reg ++ [⟨ts, animal, "PHYSIOLOGY", none, dummy, c.1, c.2, syringe_id, label_id,
                 "issued", "", ""⟩]

/-- Mutation applied by `cmd_inject_scan` to the matched entry
(`blindkit_v1_6.py`, line 655). -/
def injectUpd (ts photo_hash : String) (e : EntryL) : EntryL :=
  { e with status := "used", ts_inject := ts, inject_photo_hash := photo_hash }

/-- Model of `cmd_inject_scan` (`blindkit_v1_6.py`, lines 603-660), restricted
to its registry effect: with a check-code mismatch or no matching issued
entry the registry is unchanged; otherwise the first matching issued entry is
marked used. -/
def injectScanL (reg : List EntryL) (animal stage : String) (session : Option Nat)
    (dummy check1 check2 label_id ts photo_hash : String) : List EntryL :=
  if !(stage == "VIRAL" || stage == "BEHAVIOR" || stage == "PHYSIOLOGY" || stage == "ANATOMY")
    then reg
  else
    let c := compute_checks_v1_6 dummy animal stage
    if !(check1 == c.1 && check2 == c.2) then reg
    else
      match firstIssuedIdx reg animal stage dummy label_id session with
      | none => reg
      | some i => updateAt i (injectUpd ts photo_hash) reg

/-- Registries reachable, from the empty registry created by `init-study`,
through the v1.6 issuance and injection commands under fixed approved plans. -/
inductive ReachableL (bp : BPlan) (pp : PPlan) : List EntryL → Prop
  | init : ReachableL bp pp []
  | behavior (reg : List EntryL) (animal : String) (session : Nat)
      (syringe_id rand label_id ts : String) :
      ReachableL bp pp reg →
      ReachableL bp pp (overlayBehaviorL bp reg animal session syringe_id rand label_id ts)
  | aliquot (reg : List EntryL) (animal container_id micro label_id ts : String) :
      ReachableL bp pp reg →
      ReachableL bp pp (overlayAliquotL reg animal container_id micro label_id ts)
  | physiology (reg : List EntryL) (animal syringe_id rand label_id ts : String) :
      ReachableL bp pp reg →
      ReachableL bp pp (overlayPhysiologyL pp reg animal syringe_id rand label_id ts)
  | inject (reg : List EntryL) (animal stage : String) (session : Option Nat)
      (dummy check1 check2 label_id ts photo_hash : String) :
      ReachableL bp pp reg →
      ReachableL bp pp (injectScanL reg animal stage session dummy check1 check2 label_id ts photo_hash)

/-- Registry invariant claimed for the v1.6 issuance rules: at most one VIRAL
and one PHYSIOLOGY entry per animal, and every BEHAVIOR entry carries a
plan-approved session of its animal. -/
def RegOK (bp : BPlan) (reg : List EntryL) : Prop :=
  (∀ an : String, reg.countP (fun e => e.animal == an && e.stage == "VIRAL") ≤ 1) ∧
  (∀ an : String, reg.countP (fun e => e.animal == an && e.stage == "PHYSIOLOGY") ≤ 1) ∧
  (∀ e ∈ reg, e.stage = "BEHAVIOR" →
    ∃ s : Nat, e.session = some s ∧ sessionPlanned bp e.animal s = true)

/-- Model of `cmd_overlay_aliquot` from `blindkit_v4_0.py` (lines 680-696):
the v4.0 variant builds the dummy/check codes and appends the entry with no
single-issuance check at all (`append_blinder_registry`, lines 389-396). -/
def overlayAliquotV4 (reg : List Entry)
    (animal : String) (aliquot_id micro label_id ts : String) : List Entry :=
  let dummy := "VIR-" ++ micro
  let c := compute_checks dummy animal "VIRAL"
  reg ++ [⟨ts, animal, "VIRAL", none, dummy, c.1, c.2, aliquot_id, label_id,
           "issued", none, none⟩]

/-! ### Hash-chained audit log (v1.6, `append_log` / `cmd_verify_all`) -/

/-- Payload fields of an audit event; every `append_log` call site in
`blindkit_v1_6.py` (lines 544, 569, 600, 657-659, 745-758, 918-925) passes
exactly this field set. -/
structure EventData where
  ts : String
  event : String
  animal : String
  stage : String
  session : Option Nat
  dummy : String
  check1 : String
  check2 : String
  syringe_id : String
  label_id : String
  photo_path : String
  photo_hash : String
  deriving Repr, DecidableEq

/-- Stored audit event: payload plus the chain fields added by `append_log`
(`blindkit_v1_6.py`, lines 110-112). -/
structure StoredEvent where
  data : EventData
  prev_hash : Option String
  event_hash : String
  deriving Repr, DecidableEq

/-- JSON escape of one character, as produced by Python `json.dumps` with its
default `ensure_ascii=True`. -/
def jsonEscChar (c : Char) : List Char :=
  if c = '"' then ['\\', '"']
  else if c = '\\' then ['\\', '\\']
  else if c = '\n' then ['\\', 'n']
  else if c = '\r' then ['\\', 'r']
  else if c = '\t' then ['\\', 't']
  else if c.toNat = 8 then ['\\', 'b']
  else if c.toNat = 12 then ['\\', 'f']
  else if c.toNat < 32 then
    ['\\', 'u', '0', '0', hexDigitLower (c.toNat / 16 % 16), hexDigitLower (c.toNat % 16)]
  else if c.toNat < 127 then [c]
  else if c.toNat < 65536 then
    ['\\', 'u', hexDigitLower (c.toNat / 4096 % 16), hexDigitLower (c.toNat / 256 % 16),
     hexDigitLower (c.toNat / 16 % 16), hexDigitLower (c.toNat % 16)]
  else
    ['\\', 'u', hexDigitLower ((55296 + (c.toNat - 65536) / 1024) / 4096 % 16),
     hexDigitLower ((55296 + (c.toNat - 65536) / 1024) / 256 % 16),
     hexDigitLower ((55296 + (c.toNat - 65536) / 1024) / 16 % 16),
     hexDigitLower ((55296 + (c.toNat - 65536) / 1024) % 16)] ++
    ['\\', 'u', hexDigitLower ((56320 + (c.toNat - 65536) % 1024) / 4096 % 16),
     hexDigitLower ((56320 + (c.toNat - 65536) % 1024) / 256 % 16),
     hexDigitLower ((56320 + (c.toNat - 65536) % 1024) / 16 % 16),
     hexDigitLower ((56320 + (c.toNat - 65536) % 1024) % 16)]

/-- JSON string literal of a Lean string. -/
def jsonStr (s : String) : String :=
  "\"" ++ String.mk (s.data.flatMap jsonEscChar) ++ "\""

/-- JSON form of an optional string (`null` for Python `None`). -/
def jsonOptStr : Option String → String
  | none => "null"
  | some s => jsonStr s

/-- JSON form of an optional session number. -/
def jsonOptNat : Option Nat → String
  | none => "null"
  | some n => toString n

/-- Model of `json.dumps(event, sort_keys=True)` over the event record with
`prev_hash` set but before `event_hash` is added (`blindkit_v1_6.py`,
line 111); keys in sorted order with the default `", "` / `": "` separators. -/
def serialPre (d : EventData) (prev : Option String) : String :=
  "\x7b\"animal\": " ++ jsonStr d.animal ++
  ", \"check1\": " ++ jsonStr d.check1 ++
  ", \"check2\": " ++ jsonStr d.check2 ++
  ", \"dummy\": " ++ jsonStr d.dummy ++
  ", \"event\": " ++ jsonStr d.event ++
  ", \"label_id\": " ++ jsonStr d.label_id ++
  ", \"photo_hash\": " ++ jsonStr d.photo_hash ++
  ", \"photo_path\": " ++ jsonStr d.photo_path ++
  ", \"prev_hash\": " ++ jsonOptStr prev ++
  ", \"session\": " ++ jsonOptNat d.session ++
  ", \"stage\": " ++ jsonStr d.stage ++
  ", \"syringe_id\": " ++ jsonStr d.syringe_id ++
  ", \"ts\": " ++ jsonStr d.ts ++ "\x7d"

/-- Recomputed event hash of a stored event: the hash of the sorted-key
serialization of all fields except `event_hash` itself, exactly as recomputed
by `cmd_verify_all` (`blindkit_v1_6.py`, lines 679-680). -/
def chkHash (e : StoredEvent) : String := sha256_str (serialPre e.data e.prev_hash)

/-- Stored event built by `append_log` for payload `d` on a log whose last
stored hash is `prev` (`blindkit_v1_6.py`, lines 104-112). -/
def mkStored (d : EventData) (prev : Option String) : StoredEvent :=
  ⟨d, prev, sha256_str (serialPre d prev)⟩

/-- Model of one `append_log` call (`blindkit_v1_6.py`, lines 99-114):
`prev_hash` is the `event_hash` of the last line, `None` on an empty or
missing log. -/
def append_log (log : List StoredEvent) (d : EventData) : List StoredEvent :=
  log ++ [mkStored d ((log.getLast?).map (fun e => e.event_hash))]

/-- Log produced by appending the given payloads, in order, to an empty log. -/
def buildLog (ds : List EventData) : List StoredEvent :=
  ds.foldl append_log []

/-- Walk of `cmd_verify_all` (`blindkit_v1_6.py`, lines 676-683): recompute
each event hash, compare to the stored one, compare `prev_hash` to the
previous stored hash, and return the position of the first broken link
(`none` when the chain is intact).  The function returns at the first break,
as the Python code does. -/
def verifyAux : Option String → Nat → List StoredEvent → Option Nat
  | _, _, [] => none
  | prev, i, e :: t =>
    if chkHash e ≠ e.event_hash then some i
    else if e.prev_hash ≠ prev then some i
    else verifyAux (some e.event_hash) (i + 1) t

/-- Verification of a full log from the start. -/
def verifyLog (log : List StoredEvent) : Option Nat := verifyAux none 0 log

/-- Stored `event_hash` at a position, if the position exists. -/
def hashAt (log : List StoredEvent) (i : Nat) : Option String :=
  (log.get? i).map (fun e => e.event_hash)

/-- Chain discipline of a stored log continuing from previous hash `prev`:
each event stores the hash of its own serialization and links to its
predecessor. -/
def Chained : Option String → List StoredEvent → Prop
  | _, [] => True
  | prev, e :: t => e.prev_hash = prev ∧ e.event_hash = chkHash e ∧ Chained (some e.event_hash) t

/-! ### Anatomy crossref records and the Experimenter manifest (v4.0) -/

/-- Crossref record built per image by `cmd_blind_anatomy`
(`blindkit_v4_0.py`, lines 859-869). -/
structure CrossRec where
  animal : String
  blinded_id : String
  M : Nat
  N : Nat
  original_relpath : String
  original_sha256 : String
  original_dhash : String
  blinded_relpath : String
  blinded_sha256 : String
  blinded_dhash : String
  deriving Repr, DecidableEq

/-- Experimenter-visible record projected from a crossref record
(`blindkit_v4_0.py`, line 877): the dict literal with exactly the three
blinded keys, modelled as a key-value list in insertion order. -/
def blindedOnlyRecord (r : CrossRec) : List (String × String) :=
  [("blinded_relpath", r.blinded_relpath),
   ("blinded_sha256", r.blinded_sha256),
   ("blinded_dhash", r.blinded_dhash)]

/-- Record list of `anatomy_blinded_manifest.json` written for the
Experimenter (`blindkit_v4_0.py`, lines 877-878). -/
def blindedManifest (cross : List CrossRec) : List (List (String × String)) :=
  cross.map blindedOnlyRecord

/-! ### Crossref verifier (v1.6, `cmd_verify_anatomy_crossref`) -/

/-- Live file as seen by the verifier: its current exact hash, and its
current perceptual hash when `dhash_image` succeeds (`none` models the
exception branch of `blindkit_v1_6.py`, lines 849-850 / 870-871). -/
structure FileV where
  sha : String
  dh : Option String
  deriving Repr, DecidableEq

/-- File system: paths with their live files. -/
def FS : Type := List (String × FileV)

/-- Path lookup (`Path.exists` plus reading). -/
def fsGet (fs : FS) (p : String) : Option FileV :=
  (fs.find? (fun x => x.1 == p)).map (fun x => x.2)

/-- Final path component, as `pathlib.Path(...).name` on the
slash-separated paths this pipeline writes: the characters after the last
slash. -/
def baseName (s : String) : String :=
  String.mk (s.data.foldl (fun acc c => if c = '/' then [] else acc ++ [c]) [])

/-- Value of one hexadecimal digit (both cases), as accepted by
`int(x, 16)`. -/
def hexDigitVal (c : Char) : Nat :=
  if 48 ≤ c.toNat ∧ c.toNat ≤ 57 then c.toNat - 48
  else if 97 ≤ c.toNat ∧ c.toNat ≤ 102 then c.toNat - 87
  else if 65 ≤ c.toNat ∧ c.toNat ≤ 70 then c.toNat - 55
  else 0

/-- Natural number denoted by a hex string. -/
def hexToNat (s : String) : Nat :=
  s.data.foldl (fun a c => a * 16 + hexDigitVal c) 0

/-- Population count of a 64-bit value; dHash digests are 16 hex characters,
so the XOR of two parsed digests is below `2 ^ 64`. -/
def popcount64 (n : Nat) : Nat :=
  (List.range 64).foldl (fun a i => a + n / 2 ^ i % 2) 0

/-- Model of `dhash_hamming` (`blindkit_v1_6.py`, lines 306-307): bit
difference count of the two parsed digests. -/
def dhash_hamming (a b : String) : Nat :=
  popcount64 (hexToNat a ^^^ hexToNat b)

/-- Per-file verification outcome. -/
inductive Outcome where
  | pass
  | warn
  | error
  deriving Repr, DecidableEq

/-- Hash comparison applied to a resolved live file (`blindkit_v1_6.py`,
lines 839-850 and 860-871): exact match passes; otherwise the live
perceptual hash is compared to the recorded one (`if d0 and
dhash_hamming(d_now, d0) <= thr`), producing a warning within the threshold
and an error beyond it, on a missing recorded digest, or when the live file
cannot be perceptually hashed. -/
def hashOutcome (f : FileV) (recSha recDh : String) (thr : Nat) : Outcome :=
  if f.sha == recSha then .pass
  else
    match f.dh with
    | none => .error
    | some d => if recDh != "" && dhash_hamming d recDh ≤ thr then .warn else .error

/-- Paths under `root` whose current exact hash is `sha`, in file-system
order; models the `_index_hashes` lookup used by `--relax-paths`
(`blindkit_v1_6.py`, lines 421-429). -/
def indexHashHits (fs : FS) (root : String) (sha : String) : List String :=
  (fs.filter (fun pf => (root ++ "/").isPrefixOf pf.1 && pf.2.sha == sha)).map (fun pf => pf.1)

/-- Source-side path resolution (`blindkit_v1_6.py`, lines 830-837):
`input_root/animal/basename`, then the literal recorded path, then (in
relaxed mode) the first file under the input root with the recorded hash. -/
def resolveSrc (fs : FS) (inputRoot : String) (relax : Bool) (rec : CrossRec) : Option FileV :=
  let p1 := inputRoot ++ "/" ++ rec.animal ++ "/" ++ baseName rec.original_relpath
  match fsGet fs p1 with
  | some f => some f
  | none =>
    match fsGet fs rec.original_relpath with
    | some f => some f
    | none =>
      if relax then
        match indexHashHits fs inputRoot rec.original_sha256 with
        | [] => none
        | p :: _ => fsGet fs p
      else none

/-- Blinded-side path resolution (`blindkit_v1_6.py`, lines 855-858):
`output_root/blinded_relpath`, then (in relaxed mode) the first file under
the output root with the recorded hash. -/
def resolveDst (fs : FS) (outputRoot : String) (relax : Bool) (rec : CrossRec) : Option FileV :=
  match fsGet fs (outputRoot ++ "/" ++ rec.blinded_relpath) with
  | some f => some f
  | none =>
    if relax then
      match indexHashHits fs outputRoot rec.blinded_sha256 with
      | [] => none
      | p :: _ => fsGet fs p
    else none

/-- Outcome of the source-side check of one crossref record; a file that
cannot be located is an error (`blindkit_v1_6.py`, lines 851-852). -/
def checkSrc (fs : FS) (inputRoot : String) (relax : Bool) (thr : Nat) (rec : CrossRec) : Outcome :=
  match resolveSrc fs inputRoot relax rec with
  | none => .error
  | some f => hashOutcome f rec.original_sha256 rec.original_dhash thr

/-- Outcome of the blinded-side check of one crossref record
(`blindkit_v1_6.py`, lines 859-873). -/
def checkDst (fs : FS) (outputRoot : String) (relax : Bool) (thr : Nat) (rec : CrossRec) : Outcome :=
  match resolveDst fs outputRoot relax rec with
  | none => .error
  | some f => hashOutcome f rec.blinded_sha256 rec.blinded_dhash thr

/-- Both outcomes of one crossref record, in check order. -/
def recOutcomes (fs : FS) (inputRoot outputRoot : String) (relax : Bool) (thr : Nat)
    (rec : CrossRec) : List Outcome :=
  [checkSrc fs inputRoot relax thr rec, checkDst fs outputRoot relax thr rec]

/-- Error and warning counters accumulated over every record by
`cmd_verify_anatomy_crossref` (`blindkit_v1_6.py`, lines 825-873); the loop
never aborts early. -/
def crossrefCounts (fs : FS) (inputRoot outputRoot : String) (relax : Bool) (thr : Nat)
    (recs : List CrossRec) : Nat × Nat :=
  recs.foldl
    (fun acc rec =>
      let o1 := checkSrc fs inputRoot relax thr rec
      let o2 := checkDst fs outputRoot relax thr rec
      ((acc.1 + if o1 = .error then 1 else 0) + (if o2 = .error then 1 else 0),
       (acc.2 + if o1 = .warn then 1 else 0) + (if o2 = .warn then 1 else 0)))
    (0, 0)

/-! ### Anatomy blinding order (v1.6, `blind_animal_folder`) -/

/-- An image file of a per-animal batch after index parsing: its full path
(as enumerated), its basename, its lowercased suffix, and the declared
`(M, N)` order pair extracted by `parse_index_pair`. -/
structure PFile where
  path : String
  name : String
  ext : String
  M : Nat
  N : Nat
  deriving Repr, DecidableEq

/-- Strict lexicographic (code-point) comparison of character lists; the
order Python uses on strings. -/
def lexLtB : List Char → List Char → Bool
  | [], [] => false
  | [], _ :: _ => true
  | _ :: _, [] => false
  | a :: as, b :: bs =>
    if a.toNat < b.toNat then true
    else if b.toNat < a.toNat then false
    else lexLtB as bs

/-- Strict lexicographic comparison of strings. -/
def strLtB (s t : String) : Bool := lexLtB s.data t.data

/-- Boolean check that a string list is lexicographically sorted
(non-strictly). -/
def lexSortedB : List String → Bool
  | [] => true
  | [_] => true
  | a :: b :: t => (strLtB a b || a == b) && lexSortedB (b :: t)

/-- Sort key of the Python sort call: the tuple `(M, N, name)`
(`blindkit_v1_6.py`, line 370). -/
def sortKey (f : PFile) : Nat × Nat × String := (f.M, f.N, f.name)

/-- Strict lexicographic order on sort-key tuples, as Python compares
tuples. -/
def tupLt (a b : Nat × Nat × String) : Bool :=
  if a.1 ≠ b.1 then a.1 < b.1
  else if a.2.1 ≠ b.2.1 then a.2.1 < b.2.1
  else strLtB a.2.2 b.2.2

/-- Strict sort order on parsed files. -/
def keyLt (a b : PFile) : Bool := tupLt (sortKey a) (sortKey b)

/-- Non-strict form of the sort order, used by the stable sort. -/
def keyLe (a b : PFile) : Bool := !keyLt b a

/-- Non-strict full-path order used by `sorted(src_dir.rglob("*"))`
(`blindkit_v1_6.py`, line 350). -/
def pathLe (a b : PFile) : Bool := !strLtB b.path a.path

/-- Insert into a sorted list, before the first element the new one is
`le`-below-or-equal; with a total `le` this is the stable insertion step. -/
def insertLe (le : α → α → Bool) (x : α) : List α → List α
  | [] => [x]
  | y :: t => if le x y then x :: y :: t else y :: insertLe le x t

/-- Stable insertion sort with a boolean total preorder, modelling Python's
stable `sorted` / `list.sort`. -/
def insSortBy (le : α → α → Bool) : List α → List α
  | [] => []
  | x :: t => insertLe le x (insSortBy le t)

/-- Order in which `blind_animal_folder` emits the images of one per-animal
batch in which every filename parses (`blindkit_v1_6.py`, lines 349-370):
the enumeration is first canonicalized by full-path sort, the parsed list is
built in that order, then sorted by the key `(M, N, name)`. -/
def blindOrder (files : List PFile) : List PFile :=
  insSortBy keyLe (insSortBy pathLe files)

/-- Decimal digit character. -/
def digitChar (d : Nat) : Char := Char.ofNat (48 + d)

/-- Model of the Python format `f"{n:03d}"`: three zero-padded digits for
`n ≤ 999`, the full decimal expansion otherwise. -/
def pad3 (n : Nat) : String :=
  if n < 1000 then String.mk [digitChar (n / 100), digitChar (n / 10 % 10), digitChar (n % 10)]
  else toString n

/-- Blinded destination filename `IDX_{M:03d}-{N:03d}{ext}`
(`blindkit_v1_6.py`, line 380). -/
def dstName (f : PFile) : String :=
  "IDX_" ++ pad3 f.M ++ "-" ++ pad3 f.N ++ f.ext

/-- Strict order on declared index pairs. -/
def pairLt (a b : Nat × Nat) : Prop := a.1 < b.1 ∨ (a.1 = b.1 ∧ a.2 < b.2)

/-! ### Unblinding bundle packager and verifier (v4.0 / v1.7.1) -/

/-- Member of a zip archive: raw stored bytes, or the JSON manifest member.
The manifest member is modelled structurally — `MANIFEST.json` is written as
`json.dumps(manifest)` and read back with `json.loads`, which is the
identity on the `(arcname, sha256)` records it carries — so the verifier's
`json.loads(zf.read("MANIFEST.json"))` is direct retrieval here. -/
inductive ZEntry where
  | bytes (b : List Nat)
  | manifest (m : List (String × String))
  deriving Repr, DecidableEq

/-- Zip archive: named members in archive order. -/
def Zip : Type := List (String × ZEntry)

/-- Singleton or empty member list for an optional input file, mirroring
`add_file`, which skips missing paths (`blindkit_v4_0.py`, lines 990-993). -/
def optMember (arc : String) : Option (List Nat) → List (String × List Nat)
  | none => []
  | some b => [(arc, b)]

/-- Data members written by `cmd_package_unblinding` in archive order
(`blindkit_v4_0.py`, lines 996-1034): the five Blinder files, the
Experimenter manifest, the receipts, the provenance records, then the two
generated reports, whose byte content (reconciliation CSV and summary) is
passed in here. -/
def packageFiles (behavior physiology registry amap across eman : Option (List Nat))
    (receipts provenance : List (String × List Nat)) (csvB rptB : List Nat) :
    List (String × List Nat) :=
  optMember "blinder/configs/behavior_plan.json" behavior ++
  optMember "blinder/configs/physiology_plan.json" physiology ++
  optMember "blinder/labels/registry.json" registry ++
  optMember "blinder/configs/anatomy_blind_map.json" amap ++
  optMember "blinder/configs/anatomy_crossref.json" across ++
  optMember "experimenter/configs/anatomy_blinded_manifest.json" eman ++
  receipts.map (fun p => ("experimenter/receipts/" ++ p.1, p.2)) ++
  provenance.map (fun p => ("experimenter/provenance/" ++ p.1, p.2)) ++
  [("reports/reconciliation.csv", csvB), ("reports/summary.md", rptB)]

/-- Manifest recorded for a file list: each member's arcname with the SHA-256
of its bytes, in member order (`blindkit_v4_0.py`, lines 993, 1018, 1034). -/
def manifestOf (files : List (String × List Nat)) : List (String × String) :=
  files.map (fun p => (p.1, sha256HexB p.2))

/-- Bundle built by `cmd_package_unblinding` (`blindkit_v4_0.py`,
lines 987-1037): all data members in order, then `MANIFEST.json` as the
final member. -/
def packageBundle (behavior physiology registry amap across eman : Option (List Nat))
    (receipts provenance : List (String × List Nat)) (csvB rptB : List Nat) : Zip :=
  let files := packageFiles behavior physiology registry amap across eman
    receipts provenance csvB rptB
  files.map (fun p => (p.1, ZEntry.bytes p.2)) ++ [("MANIFEST.json", ZEntry.manifest (manifestOf files))]

/-- Name resolution of `zipfile.ZipFile`: `NameToInfo` is a dict filled by
assignment from the archive entries in order, so a later member with the
same name overwrites an earlier one — lookups resolve to the LAST
occurrence of a name. -/
def nameToInfo (zip : Zip) (arc : String) : Option ZEntry :=
  zip.foldl (fun acc m => if m.1 == arc then some m.2 else acc) none

/-- Manifest retrieval of `cmd_verify_posthoc` (`blindkit_v4_0.py`,
lines 1049-1053): the member named `MANIFEST.json`, when present and valid,
resolved to the last occurrence of that name as `zipfile` does. -/
def readManifest (zip : Zip) : Option (List (String × String)) :=
  match nameToInfo zip "MANIFEST.json" with
  | some (ZEntry.manifest m) => some m
  | _ => none

/-- Model of `zf.read(arc)` for a data member, resolved to the last
occurrence of `arc` as `zipfile` does; `none` models the `KeyError` raised
on a missing member. -/
def zfReadData (zip : Zip) (arc : String) : Option (List Nat) :=
  match nameToInfo zip arc with
  | some (ZEntry.bytes b) => some b
  | _ => none

/-- Mismatch scan of `cmd_verify_posthoc` (`blindkit_v4_0.py`,
lines 1054-1061): for each manifest entry, re-read the stored bytes and
recompute their SHA-256; collect the arcnames whose recomputed hash differs.
`none` models the uncaught `KeyError` on a listed-but-missing member. -/
def scanManifest (zip : Zip) : List (String × String) → Option (List String)
  | [] => some []
  | e :: t =>
    match zfReadData zip e.1 with
    | none => none
    | some b =>
      match scanManifest zip t with
      | none => none
      | some rest => some (if sha256HexB b != e.2 then e.1 :: rest else rest)

/-- Result of a `verify-posthoc` run. -/
inductive VResult where
  | noManifest
  | crashed
  | ok (mismatched : List String)
  deriving Repr, DecidableEq

/-- Model of `cmd_verify_posthoc` (`blindkit_v4_0.py`, lines 1042-1061; the
same scan as `blindkit_v1_7_1.py`, lines 163-180): load the manifest, then
hash every listed member, reporting the mismatched arcnames. -/
def verifyPosthoc (zip : Zip) : VResult :=
  match readManifest zip with
  | none => .noManifest
  | some m =>
    match scanManifest zip m with
    | none => .crashed
    | some ms => .ok ms

/-- Flip one byte: replace byte `j` of the data member at position `i` of the
archive with the value `v`. -/
def bundleFlip (zip : Zip) (i j : Nat) (v : Nat) : Zip :=
  updateAt i
    (fun m =>
      match m with
      | (n, ZEntry.bytes b) => (n, ZEntry.bytes (b.set j v))
      | x => x)
    zip

/-- Hash of the last stored event, or the ambient previous hash for an empty
log; scaffolding for reasoning about `append_log`. -/
def lastHashOpt (prev : Option String) : List StoredEvent → Option String
  | [] => prev
  | e :: t => lastHashOpt (some e.event_hash) t

/-- Concrete crossref list used to instantiate the C1 theorem. -/
def crossEx : List CrossRec :=
  [⟨"ratA", "ANA-AB12CD", 1, 2, "raw/ratA/ratA index 1-2.png", "e3b01111", "00ff00ff00ff00ff",
    "anatomy_blinded/ANA-AB12CD/IDX_001-002.png", "9f86aaaa", "00ff00ff00ff00fe"⟩]

/-- Concrete issued VIRAL registry entry for the C4 witness. -/
def viralEntryEx : EntryL :=
  ⟨"t1", "R001", "VIRAL", none, "VIR-ABCD", "56", "06", "C1", "L1", "issued", "", ""⟩

/-- Payload of the first concrete audit event. -/
def evWitness : EventData :=
  ⟨"2024-01-01T00:00:00", "overlay", "R001", "VIRAL", none, "VIR-ABCD", "56", "06",
   "S1", "AB12", "", ""⟩

/-- Payload of the second concrete audit event. -/
def evWitness2 : EventData :=
  ⟨"2024-01-01T00:05:00", "inject", "R001", "BEHAVIOR", some 2, "VIR-ABCD", "56", "06",
   "S1", "AB12", "", ""⟩

/-- Stored second event with its `event_hash` field overwritten by zeros;
`data` and `prev_hash` are the genuine stored values. -/
def tamperedEv : StoredEvent :=
  ⟨evWitness2,
   some "3ab9bc4438244f9c7204c9aa6fcc3526280fae8aa452e990fd66c3ae02f68891",
   "0000000000000000000000000000000000000000000000000000000000000000"⟩

/-- Parsed file with declared index `(200, 1)`. -/
def pf200 : PFile :=
  ⟨"ratA/im index 200-1.jpg", "im index 200-1.jpg", ".jpg", 200, 1⟩

/-- Parsed file with declared index `(1000, 1)`. -/
def pf1000 : PFile :=
  ⟨"ratA/im index 1000-1.jpg", "im index 1000-1.jpg", ".jpg", 1000, 1⟩

/-- Parsed file `(1, 1)` for the C7 witness. -/
def pfW1 : PFile := ⟨"ratB/s index 1-1.jpg", "s index 1-1.jpg", ".jpg", 1, 1⟩

/-- Parsed file `(1, 2)` for the C7 witness. -/
def pfW2 : PFile := ⟨"ratB/s index 1-2.png", "s index 1-2.png", ".png", 1, 2⟩

def fC6src : FileV := ⟨"aa", some "00ff00ff00ff00ff"⟩

def fC6dst : FileV := ⟨"cc", some "0000000000000003"⟩

def recC6 : CrossRec :=
  ⟨"R001", "IDX_001", 1, 1, "raw/R001/a.jpg", "aa", "00ff00ff00ff00ff",
   "IDX_001-001.jpg", "bb", "0000000000000000"⟩

def fsC6 : FS :=
  [("in/R001/a.jpg", fC6src), ("out/IDX_001-001.jpg", fC6dst)]

def zipC10 : List (String × ZEntry) :=
  [("a", ZEntry.bytes [48]),
   ("MANIFEST.json", ZEntry.manifest [("a", sha256HexB [48])])]

/-! ## Theorems -/

/-! ### Digest lengths -/

theorem hex8_length (n : Nat) : (hex8 n).length = 8 := rfl

theorem foldl_sha256Block_length (bs : List (List Nat)) :
    ∀ hs : List Nat, (bs.foldl sha256Block hs).length = 8 ∨ bs.foldl sha256Block hs = hs := by
  induction bs with
  | nil => intro hs; exact Or.inr rfl
  | cons b t ih =>
    intro hs
    rcases ih (sha256Block hs b) with h | h
    · exact Or.inl h
    · left
      rw [List.foldl_cons, h]
      rfl

theorem sha256Words_length (msg : List Nat) : (sha256Words msg).length = 8 := by
  unfold sha256Words
  rcases foldl_sha256Block_length (blocks64 (shaPad msg))
      [1779033703, 3144134277, 1013904242, 2773480762, 1359893119, 2600822924, 528734635, 1541459225]
    with h | h
  · exact h
  · rw [h]
    rfl

theorem foldl_sha1Block_length (bs : List (List Nat)) :
    ∀ hs : List Nat, (bs.foldl sha1Block hs).length = 5 ∨ bs.foldl sha1Block hs = hs := by
  induction bs with
  | nil => intro hs; exact Or.inr rfl
  | cons b t ih =>
    intro hs
    rcases ih (sha1Block hs b) with h | h
    · exact Or.inl h
    · left
      rw [List.foldl_cons, h]
      rfl

theorem sha1Words_length (msg : List Nat) : (sha1Words msg).length = 5 := by
  unfold sha1Words
  rcases foldl_sha1Block_length (blocks64 (shaPad msg))
      [1732584193, 4023233417, 2562383102, 271733878, 3285377520] with h | h
  · exact h
  · rw [h]
    rfl

theorem sum_map_const_eight (l : List Nat) : (l.map (fun _ => (8 : Nat))).sum = 8 * l.length := by
  induction l with
  | nil => simp
  | cons a t ih =>
    simp only [List.map_cons, List.sum_cons, List.length_cons, ih, Nat.mul_succ]
    ring

theorem sha256HexB_length (msg : List Nat) : (sha256HexB msg).length = 64 := by
  show ((sha256Words msg).flatMap hex8).length = 64
  rw [List.length_flatMap]
  have h : List.length ∘ hex8 = fun _ : Nat => (8 : Nat) := funext fun n => hex8_length n
  rw [h, sum_map_const_eight, sha256Words_length]

theorem sha1HexB_length (msg : List Nat) : (sha1HexB msg).length = 40 := by
  show ((sha1Words msg).flatMap hex8).length = 40
  rw [List.length_flatMap]
  have h : List.length ∘ hex8 = fun _ : Nat => (8 : Nat) := funext fun n => hex8_length n
  rw [h, sum_map_const_eight, sha1Words_length]

theorem upperStr_length (s : String) : (upperStr s).length = s.length := by
  show (s.data.map Char.toUpper).length = s.data.length
  exact List.length_map s.data Char.toUpper

theorem take_string_length (s : String) (n : Nat) : (s.take n).length = min n s.length := by
  show (s.take n).data.length = min n s.data.length
  rw [String.data_take, List.length_take]


/-! ### C9 — purity and shape of the checksum function -/

theorem compute_checks_eq (d a s : String) :
    compute_checks d a s =
      (if s = "VIRAL" then
        ((upperStr (sha256_str (d ++ a ++ s))).take 2, (upperStr (sha1_str (d ++ a ++ s))).take 2)
      else if s = "BEHAVIOR" then
        ((upperStr (sha256_str (d ++ a ++ s))).take 4, (upperStr (sha1_str (d ++ a ++ s))).take 4)
      else
        ((upperStr (sha256_str (d ++ a ++ s))).take 2, (upperStr (sha1_str (d ++ a ++ s))).take 2)) := rfl

theorem compute_checks_v1_6_eq (d a s : String) :
    compute_checks_v1_6 d a s =
      ((upperStr (sha256_str (d ++ a ++ s))).take (check_lengths s).1,
       (upperStr (sha1_str (d ++ a ++ s))).take (check_lengths s).2) := rfl

/-- C9.  The checks function is pure and deterministic: it is a total
function of `(dummy, animal, stage)` alone, so two calls on identical inputs
return identical `(check1, check2)` pairs; and each component is produced by
one of two independent hash primitives — `check1` from SHA-256, `check2`
from SHA-1, both over the UTF-8 bytes of `dummy ++ animal ++ stage` — 
uppercased and truncated to a stage-dependent length (v4.0: 2 for VIRAL, 4
for BEHAVIOR, 2 otherwise; v1.6: `check_lengths`, 2 for VIRAL and 4
otherwise).  The final conjuncts pin the truncated lengths: the digests have
64 resp. 40 hex characters, so taking `n ∈ {2, 4}` characters yields exactly
`n`. -/
theorem compute_checks_pure_two_primitives (dummy animal stage : String) :
    compute_checks dummy animal stage = compute_checks dummy animal stage ∧
    compute_checks dummy animal stage =
      (if stage = "VIRAL" then
        ((upperStr (sha256_str (dummy ++ animal ++ stage))).take 2,
         (upperStr (sha1_str (dummy ++ animal ++ stage))).take 2)
      else if stage = "BEHAVIOR" then
        ((upperStr (sha256_str (dummy ++ animal ++ stage))).take 4,
         (upperStr (sha1_str (dummy ++ animal ++ stage))).take 4)
      else
        ((upperStr (sha256_str (dummy ++ animal ++ stage))).take 2,
         (upperStr (sha1_str (dummy ++ animal ++ stage))).take 2)) ∧
    compute_checks_v1_6 dummy animal stage =
      ((upperStr (sha256_str (dummy ++ animal ++ stage))).take (check_lengths stage).1,
       (upperStr (sha1_str (dummy ++ animal ++ stage))).take (check_lengths stage).2) ∧
    (∀ n : Nat, ((upperStr (sha256_str (dummy ++ animal ++ stage))).take n).length = min n 64) ∧
    (∀ n : Nat, ((upperStr (sha1_str (dummy ++ animal ++ stage))).take n).length = min n 40) ∧
    check_lengths stage = (if upperStr stage = "VIRAL" then (2, 2) else (4, 4)) := by
  refine ⟨rfl, compute_checks_eq dummy animal stage, compute_checks_v1_6_eq dummy animal stage,
    ?_, ?_, rfl⟩
  · intro n
    rw [take_string_length, upperStr_length]
    rw [show (sha256_str (dummy ++ animal ++ stage)).length = 64 from sha256HexB_length _]
  · intro n
    rw [take_string_length, upperStr_length]
    rw [show (sha1_str (dummy ++ animal ++ stage)).length = 40 from sha1HexB_length _]

/-! ### C1 — the Experimenter-visible manifest carries only blinded fields -/

/-- C1.  Every record written to the Experimenter-visible
`anatomy_blinded_manifest.json` carries exactly three fields — the blinded
path, the blinded SHA-256 and the blinded dHash, in that key order — every
value in the record is drawn from those three blinded fields of its source
crossref record, and the record holds no `animal` and no `original_relpath`
key, for any crossref list a pipeline run may produce. -/
theorem blinded_manifest_three_fields_only (cross : List CrossRec) :
    ∀ m ∈ blindedManifest cross,
      m.length = 3 ∧
      m.map Prod.fst = ["blinded_relpath", "blinded_sha256", "blinded_dhash"] ∧
      (∃ r ∈ cross, m = blindedOnlyRecord r ∧
        ∀ kv ∈ m, kv.2 = r.blinded_relpath ∨ kv.2 = r.blinded_sha256 ∨ kv.2 = r.blinded_dhash) ∧
      m.lookup "animal" = none ∧
      m.lookup "original_relpath" = none := by
  intro m hm
  obtain ⟨r, hr, rfl⟩ := List.mem_map.mp hm
  refine ⟨rfl, rfl, ⟨r, hr, rfl, ?_⟩, ?_, ?_⟩
  · intro kv hkv
    simp only [blindedOnlyRecord, List.mem_cons, List.not_mem_nil, or_false] at hkv
    rcases hkv with h | h | h <;> subst h
    · exact Or.inl rfl
    · exact Or.inr (Or.inl rfl)
    · exact Or.inr (Or.inr rfl)
  · simp [blindedOnlyRecord, List.lookup]
  · simp [blindedOnlyRecord, List.lookup]

/-- Witness for C1 at a concrete pipeline record. -/
theorem blinded_manifest_three_fields_only_witness :
    [("blinded_relpath", "anatomy_blinded/ANA-AB12CD/IDX_001-002.png"),
     ("blinded_sha256", "9f86aaaa"), ("blinded_dhash", "00ff00ff00ff00fe")].length = 3 ∧
    [("blinded_relpath", "anatomy_blinded/ANA-AB12CD/IDX_001-002.png"),
     ("blinded_sha256", "9f86aaaa"),
     ("blinded_dhash", "00ff00ff00ff00fe")].map Prod.fst =
      ["blinded_relpath", "blinded_sha256", "blinded_dhash"] ∧
    (∃ r ∈ crossEx,
      [("blinded_relpath", "anatomy_blinded/ANA-AB12CD/IDX_001-002.png"),
       ("blinded_sha256", "9f86aaaa"), ("blinded_dhash", "00ff00ff00ff00fe")] = blindedOnlyRecord r ∧
      ∀ kv ∈ [("blinded_relpath", "anatomy_blinded/ANA-AB12CD/IDX_001-002.png"),
              ("blinded_sha256", "9f86aaaa"), ("blinded_dhash", "00ff00ff00ff00fe")],
        kv.2 = r.blinded_relpath ∨ kv.2 = r.blinded_sha256 ∨ kv.2 = r.blinded_dhash) ∧
    List.lookup "animal"
      [("blinded_relpath", "anatomy_blinded/ANA-AB12CD/IDX_001-002.png"),
       ("blinded_sha256", "9f86aaaa"), ("blinded_dhash", "00ff00ff00ff00fe")] = none ∧
    List.lookup "original_relpath"
      [("blinded_relpath", "anatomy_blinded/ANA-AB12CD/IDX_001-002.png"),
       ("blinded_sha256", "9f86aaaa"), ("blinded_dhash", "00ff00ff00ff00fe")] = none :=
  blinded_manifest_three_fields_only crossEx
    [("blinded_relpath", "anatomy_blinded/ANA-AB12CD/IDX_001-002.png"),
     ("blinded_sha256", "9f86aaaa"), ("blinded_dhash", "00ff00ff00ff00fe")]
    (by simp [blindedManifest, crossEx, blindedOnlyRecord])

/-! ### C2 — reconciliation is idempotent -/

theorem updateAt_nil (i : Nat) (f : α → α) : updateAt i f ([] : List α) = [] := by
  simp [updateAt]

theorem updateAt_length (i : Nat) (f : α → α) (l : List α) :
    (updateAt i f l).length = l.length := by
  induction l generalizing i with
  | nil => rw [updateAt_nil]
  | cons x t ih =>
    cases i with
    | zero => rfl
    | succ j => simpa [updateAt] using ih j

theorem updateAt_updateAt_same (i : Nat) (f g : α → α) (l : List α) :
    updateAt i f (updateAt i g l) = updateAt i (fun x => f (g x)) l := by
  induction l generalizing i with
  | nil => rw [updateAt_nil, updateAt_nil, updateAt_nil]
  | cons x t ih =>
    cases i with
    | zero => rfl
    | succ j => simpa [updateAt] using ih j

theorem updateAt_comm (i j : Nat) (hij : i ≠ j) (f g : α → α) (l : List α) :
    updateAt i f (updateAt j g l) = updateAt j g (updateAt i f l) := by
  induction l generalizing i j with
  | nil => simp only [updateAt_nil]
  | cons x t ih =>
    cases i with
    | zero =>
      cases j with
      | zero => exact absurd rfl hij
      | succ j2 => rfl
    | succ i2 =>
      cases j with
      | zero => rfl
      | succ j2 =>
        have : i2 ≠ j2 := fun h => hij (by rw [h])
        simp only [updateAt]
        rw [ih i2 j2 this]

theorem map_updateAt_eq (i : Nat) (f : α → α) (g : α → β) (l : List α)
    (h : ∀ hi : i < l.length, g (f (l.get ⟨i, hi⟩)) = g (l.get ⟨i, hi⟩)) :
    (updateAt i f l).map g = l.map g := by
  induction l generalizing i with
  | nil => rw [updateAt_nil]
  | cons x t ih =>
    cases i with
    | zero =>
      have := h (by simp)
      simp only [updateAt, List.map_cons]
      rw [show g (f x) = g x from this]
    | succ j =>
      simp only [updateAt, List.map_cons]
      rw [ih j (fun hj => h (by simpa using Nat.succ_lt_succ hj))]

theorem updEntry_updEntry (e : Entry) (r1 r2 : Receipt) :
    updEntry (updEntry e r1) r2 = updEntry e r2 := rfl

theorem applyW_absorb (l : List Entry) (i : Nat) (r1 r2 : Receipt) :
    applyW (applyW l (i, r1)) (i, r2) = applyW l (i, r2) := by
  show updateAt i _ (updateAt i _ l) = _
  rw [updateAt_updateAt_same]
  rfl

theorem applyW_comm (l : List Entry) (i j : Nat) (hij : i ≠ j) (r s : Receipt) :
    applyW (applyW l (i, r)) (j, s) = applyW (applyW l (j, s)) (i, r) := by
  show updateAt j _ (updateAt i _ l) = updateAt i _ (updateAt j _ l)
  exact updateAt_comm j i (fun h => hij h.symm) _ _ l

theorem applyAll_writeAt_mem (ws : List RWrite) :
    ∀ (l : List Entry) (i : Nat) (r : Receipt), hasWriteAt ws i = true →
      applyAll ws (applyW l (i, r)) = applyAll ws l := by
  induction ws with
  | nil => intro l i r h; simp [hasWriteAt] at h
  | cons w t ih =>
    intro l i r h
    show applyAll t (applyW (applyW l (i, r)) w) = applyAll t (applyW l w)
    by_cases hw : w.1 = i
    · have hwe : w = (i, w.2) := by
        cases w
        simp_all
      rw [hwe, applyW_absorb]
    · have hmem : hasWriteAt t i = true := by
        simp only [hasWriteAt, List.any_cons] at h
        rcases Bool.or_eq_true_iff.mp h with h1 | h1
        · exact absurd (by simpa using h1) hw
        · exact h1
      have hc : applyW (applyW l (i, r)) w = applyW (applyW l w) (i, r) := by
        have := applyW_comm l i w.1 (fun hh => hw hh.symm) r w.2
        simpa using this
      rw [hc, ih _ i r hmem]

theorem applyAll_writeAt_not_mem (ws : List RWrite) :
    ∀ (l : List Entry) (i : Nat) (r : Receipt), hasWriteAt ws i = false →
      applyAll ws (applyW l (i, r)) = applyW (applyAll ws l) (i, r) := by
  induction ws with
  | nil => intro l i r _; rfl
  | cons w t ih =>
    intro l i r h
    simp only [hasWriteAt, List.any_cons, Bool.or_eq_false_iff] at h
    have hw : w.1 ≠ i := by simpa using h.1
    show applyAll t (applyW (applyW l (i, r)) w) = _
    have hc : applyW (applyW l (i, r)) w = applyW (applyW l w) (i, r) := by
      have := applyW_comm l i w.1 (fun hh => hw hh.symm) r w.2
      simpa using this
    rw [hc]
    exact ih _ i r (by simpa [hasWriteAt] using h.2)

theorem applyAll_applyAll (ws : List RWrite) :
    ∀ l : List Entry, applyAll ws (applyAll ws l) = applyAll ws l := by
  induction ws with
  | nil => intro l; rfl
  | cons w t ih =>
    intro l
    obtain ⟨i, r⟩ := w
    show applyAll t (applyW (applyAll t (applyW l (i, r))) (i, r))
      = applyAll t (applyW l (i, r))
    by_cases h : hasWriteAt t i
    · rw [applyAll_writeAt_mem t _ i r h, applyAll_writeAt_mem t l i r h, ih l]
    · have hnot : hasWriteAt t i = false := by simpa using h
      rw [applyAll_writeAt_not_mem t l i r hnot, applyW_absorb,
        applyAll_writeAt_not_mem t (applyAll t l) i r hnot, ih l]

theorem reconMatch_proj (r : Receipt) (e : Entry) :
    reconMatch r e = projMatch r (projEntry e) := rfl

theorem findIdx?_map_general (p : β → Bool) (f : α → β) (l : List α) :
    ∀ i : Nat, List.findIdx? p (l.map f) i = List.findIdx? (fun a => p (f a)) l i := by
  induction l with
  | nil => intro i; rfl
  | cons x t ih =>
    intro i
    rw [List.map_cons, List.findIdx?_cons, List.findIdx?_cons, ih (i + 1)]

theorem findIdx?_reconMatch_proj (r : Receipt) (l : List Entry) :
    (l.map projEntry).findIdx? (projMatch r) = l.findIdx? (reconMatch r) := by
  rw [findIdx?_map_general (projMatch r) projEntry l 0]
  rfl

theorem projEntry_updEntry (e : Entry) (r : Receipt)
    (h : (e.status == "issued" || e.status == "used") = true) :
    projEntry (updEntry e r) = projEntry e := by
  simp only [projEntry, updEntry]
  rw [show (("used" == "issued" || "used" == "used") : Bool) = true from rfl, h]

theorem reconMatch_status_ok (r : Receipt) (e : Entry) (h : reconMatch r e = true) :
    (e.status == "issued" || e.status == "used") = true := by
  simp only [reconMatch, Bool.and_eq_true] at h
  exact h.1.1.1.1.1

theorem map_projEntry_step (reg : List Entry) (r : Receipt) :
    (stepReceipt reg r).map projEntry = reg.map projEntry := by
  unfold stepReceipt
  cases hf : reg.findIdx? (reconMatch r) with
  | none => rfl
  | some i =>
    by_cases hc : receiptChecksOK r
    · simp only [hc, if_true]
      obtain ⟨hi, hp, -⟩ := List.findIdx?_eq_some_iff_getElem.mp hf
      refine map_updateAt_eq i _ projEntry reg (fun hi2 => ?_)
      have hpe : reconMatch r (reg.get ⟨i, hi2⟩) = true := by
        simpa using hp
      exact projEntry_updEntry _ r (reconMatch_status_ok r _ hpe)
    · simp [hc]

theorem writesFor_cons (P : List EntryProj) (r : Receipt) (rs : List Receipt) :
    writesFor P (r :: rs) = writesFor P [r] ++ writesFor P rs := by
  simp only [writesFor, List.filterMap_cons]
  cases P.findIdx? (projMatch r) with
  | none => rfl
  | some i =>
    by_cases hc : receiptChecksOK r <;> simp [hc]

theorem applyAll_append (ws1 ws2 : List RWrite) (l : List Entry) :
    applyAll (ws1 ++ ws2) l = applyAll ws2 (applyAll ws1 l) := by
  simp [applyAll, List.foldl_append]

theorem step_eq_applyAll (reg : List Entry) (r : Receipt) :
    stepReceipt reg r = applyAll (writesFor (reg.map projEntry) [r]) reg := by
  unfold stepReceipt writesFor
  simp only [List.filterMap_cons, List.filterMap_nil]
  rw [findIdx?_reconMatch_proj r reg]
  cases hf : reg.findIdx? (reconMatch r) with
  | none => rfl
  | some i =>
    by_cases hc : receiptChecksOK r
    · simp only [hc, if_true]
      rfl
    · simp only [hc, if_false]
      rfl

theorem reconcile_eq_applyAll (rs : List Receipt) :
    ∀ reg : List Entry,
      reconcileEntries reg rs = applyAll (writesFor (reg.map projEntry) rs) reg := by
  induction rs with
  | nil => intro reg; rfl
  | cons r t ih =>
    intro reg
    show reconcileEntries (stepReceipt reg r) t = _
    rw [ih (stepReceipt reg r), map_projEntry_step reg r, writesFor_cons, applyAll_append,
      ← step_eq_applyAll reg r]

theorem map_projEntry_reconcile (rs : List Receipt) :
    ∀ reg : List Entry, (reconcileEntries reg rs).map projEntry = reg.map projEntry := by
  induction rs with
  | nil => intro reg; rfl
  | cons r t ih =>
    intro reg
    show ((reconcileEntries (stepReceipt reg r) t).map projEntry) = _
    rw [ih (stepReceipt reg r), map_projEntry_step reg r]

/-- C2.  Reconciliation is idempotent on the registry content: for every
starting registry and every fixed receipt list, running the v4.0
reconciliation engine twice in succession yields exactly the same final
registry as running it once — in particular the second run changes no
entry's `status`, `ts_inject` or `inject_photo_hash`.  The permissive match
on status `issued` or `used` makes the second run re-select exactly the
entries of the first and overwrite them with the same receipt fields. -/
theorem reconcile_usage_idempotent (reg : List Entry) (rs : List Receipt) :
    reconcileEntries (reconcileEntries reg rs) rs = reconcileEntries reg rs := by
  rw [reconcile_eq_applyAll rs (reconcileEntries reg rs), map_projEntry_reconcile rs reg,
    reconcile_eq_applyAll rs reg, applyAll_applyAll]

/-! ### C5 — the registry rewrite is single but in-place, not temp+rename -/

theorem reconcileRun_loop (receipts : List (String × Receipt)) :
    ∀ (reg : List Entry) (acc : List FsOp),
      receipts.foldl (fun acc p => (stepReceipt acc.1 p.2, acc.2 ++ [FsOp.read p.1])) (reg, acc)
        = (reconcileEntries reg (receipts.map Prod.snd),
           acc ++ receipts.map (fun p => FsOp.read p.1)) := by
  induction receipts with
  | nil => intro reg acc; simp [reconcileEntries]
  | cons p t ih =>
    intro reg acc
    rw [List.foldl_cons, ih (stepReceipt reg p.2) (acc ++ [FsOp.read p.1])]
    simp [reconcileEntries]

theorem reconcileRun_eq (regPath : String) (reg0 : List Entry)
    (receipts : List (String × Receipt)) :
    reconcileRun regPath reg0 receipts =
      (reconcileEntries reg0 (receipts.map Prod.snd),
       [FsOp.read regPath] ++ receipts.map (fun p => FsOp.read p.1)
         ++ [FsOp.write regPath (reconcileEntries reg0 (receipts.map Prod.snd))]) := by
  unfold reconcileRun
  rw [reconcileRun_loop receipts reg0 [FsOp.read regPath]]

/-- C5 counterexample.  The claim asserts that the reconciliation rewrite is
atomic — written to a temporary file which is then renamed over the registry,
never an in-place overwrite.  On a concrete run the recorded trace is one
read of `registry.json` followed by a direct `write_text` to the very same
path: it contains no rename operation at all, and the single write targets
the registry path itself. -/
theorem reconcile_rewrite_not_atomic_cex :
    (reconcileRun "BR/labels/registry.json" [] []).2 =
      [FsOp.read "BR/labels/registry.json", FsOp.write "BR/labels/registry.json" []] ∧
    ((reconcileRun "BR/labels/registry.json" [] []).2.filter FsOp.isRename) = [] ∧
    FsOp.write "BR/labels/registry.json" [] ∈ (reconcileRun "BR/labels/registry.json" [] []).2 := by
  refine ⟨rfl, rfl, List.mem_cons_of_mem _ (List.mem_singleton.mpr rfl)⟩

/-- C5 as amended.  Every reconciliation run rewrites the registry file
exactly once — the trace contains exactly one write, carrying the fully
reconciled registry — but that write is a direct in-place `write_text` to
the registry path: the trace contains no rename, so the temp-file-and-rename
atomicity the spec describes is not present in the code. -/
theorem reconcile_single_direct_write (regPath : String) (reg0 : List Entry)
    (receipts : List (String × Receipt)) :
    ((reconcileRun regPath reg0 receipts).2.filter FsOp.isWrite) =
      [FsOp.write regPath (reconcileEntries reg0 (receipts.map Prod.snd))] ∧
    ((reconcileRun regPath reg0 receipts).2.filter FsOp.isRename) = [] ∧
    (reconcileRun regPath reg0 receipts).1 = reconcileEntries reg0 (receipts.map Prod.snd) := by
  rw [reconcileRun_eq]
  have hmapW : List.filter FsOp.isWrite (receipts.map (fun p => FsOp.read p.1)) = [] := by
    refine List.filter_eq_nil_iff.mpr (fun op hop => ?_)
    obtain ⟨p, -, rfl⟩ := List.mem_map.mp hop
    simp [FsOp.isWrite]
  have hmapR : List.filter FsOp.isRename (receipts.map (fun p => FsOp.read p.1)) = [] := by
    refine List.filter_eq_nil_iff.mpr (fun op hop => ?_)
    obtain ⟨p, -, rfl⟩ := List.mem_map.mp hop
    simp [FsOp.isRename]
  refine ⟨?_, ?_, rfl⟩
  · simp only [List.filter_append, hmapW]
    rfl
  · simp only [List.filter_append, hmapR]
    rfl

/-! ### C4 — single-issuance and plan-approval rules -/

theorem countP_updateAt (p : α → Bool) (f : α → α) (h : ∀ x, p (f x) = p x)
    (i : Nat) (l : List α) : (updateAt i f l).countP p = l.countP p := by
  induction l generalizing i with
  | nil => rw [updateAt_nil]
  | cons x t ih =>
    cases i with
    | zero => simp [updateAt, List.countP_cons, h x]
    | succ j => simp [updateAt, List.countP_cons, ih j]

theorem mem_updateAt (a : α) (f : α → α) (i : Nat) (l : List α)
    (h : a ∈ updateAt i f l) : a ∈ l ∨ ∃ x ∈ l, a = f x := by
  induction l generalizing i with
  | nil => rw [updateAt_nil] at h; exact Or.inl h
  | cons x t ih =>
    cases i with
    | zero =>
      rcases List.mem_cons.mp h with rfl | hmem
      · exact Or.inr ⟨x, List.mem_cons_self x t, rfl⟩
      · exact Or.inl (List.mem_cons_of_mem x hmem)
    | succ j =>
      rcases List.mem_cons.mp h with rfl | hmem
      · exact Or.inl (List.mem_cons_self _ _)
      · rcases ih j hmem with h1 | ⟨y, hy, rfl⟩
        · exact Or.inl (List.mem_cons_of_mem x h1)
        · exact Or.inr ⟨y, List.mem_cons_of_mem x hy, rfl⟩

theorem any_issued_empty_countP_zero (reg : List EntryL) (animal stage : String)
    (h : (any_issued_for_stage reg animal stage).isEmpty = true) :
    reg.countP (fun e => e.animal == animal && e.stage == stage) = 0 := by
  rw [List.countP_eq_zero]
  intro e he
  have hfil : reg.filter (fun e => e.animal == animal && e.stage == stage) = [] := by
    simpa [any_issued_for_stage] using List.isEmpty_iff.mp h
  intro hpe
  have : e ∈ reg.filter (fun e => e.animal == animal && e.stage == stage) :=
    List.mem_filter.mpr ⟨he, hpe⟩
  rw [hfil] at this
  exact List.not_mem_nil e this

/-- C4 as amended (v1.6 issuance).  The v1.6 overlay commands reject — and
append no registry entry for — a VIRAL issuance for an animal that already
has any VIRAL entry, a PHYSIOLOGY issuance for an animal that already has
a PHYSIOLOGY entry or has no planned agent, and a BEHAVIOR issuance whose
session is not in the approved behavior plan; consequently every registry
reachable through the v1.6 commands holds at most one VIRAL and one
PHYSIOLOGY entry per animal and only plan-approved BEHAVIOR sessions.
(The v4.0 `cmd_overlay_aliquot` does not enforce this; see the
counterexample.) -/
theorem issuance_rules_v1_6 :
    (∀ (reg : List EntryL) (animal c m lid ts : String),
      (∃ e ∈ reg, e.animal = animal ∧ e.stage = "VIRAL") →
      overlayAliquotL reg animal c m lid ts = reg) ∧
    (∀ (pp : PPlan) (reg : List EntryL) (animal s r lid ts : String),
      (∃ e ∈ reg, e.animal = animal ∧ e.stage = "PHYSIOLOGY") →
      overlayPhysiologyL pp reg animal s r lid ts = reg) ∧
    (∀ (pp : PPlan) (reg : List EntryL) (animal s r lid ts : String),
      pp.find? (fun p => p.1 == animal) = none →
      overlayPhysiologyL pp reg animal s r lid ts = reg) ∧
    (∀ (bp : BPlan) (reg : List EntryL) (animal : String) (session : Nat) (sy r lid ts : String),
      sessionPlanned bp animal session = false →
      overlayBehaviorL bp reg animal session sy r lid ts = reg) ∧
    (∀ (bp : BPlan) (pp : PPlan) (reg : List EntryL), ReachableL bp pp reg → RegOK bp reg) := by
  have hne : ∀ (reg : List EntryL) (animal stage : String),
      (∃ e ∈ reg, e.animal = animal ∧ e.stage = stage) →
      (!(any_issued_for_stage reg animal stage).isEmpty) = true := by
    intro reg animal stage ⟨e, he, h1, h2⟩
    have hmem : e ∈ reg.filter (fun e => e.animal == animal && e.stage == stage) :=
      List.mem_filter.mpr ⟨he, by simp [h1, h2]⟩
    have : (any_issued_for_stage reg animal stage) ≠ [] := by
      intro hnil
      rw [show any_issued_for_stage reg animal stage
          = reg.filter (fun e => e.animal == animal && e.stage == stage) from rfl] at hnil
      rw [hnil] at hmem
      exact List.not_mem_nil e hmem
    simpa [List.isEmpty_iff] using this
  refine ⟨?_, ?_, ?_, ?_, ?_⟩
  · intro reg animal c m lid ts hex
    unfold overlayAliquotL
    rw [hne reg animal "VIRAL" hex]
    rfl
  · intro pp reg animal s r lid ts hex
    unfold overlayPhysiologyL
    rw [hne reg animal "PHYSIOLOGY" hex]
    rfl
  · intro pp reg animal s r lid ts hfind
    unfold overlayPhysiologyL
    rw [hfind]
    split <;> rfl
  · intro bp reg animal session sy r lid ts hplan
    unfold overlayBehaviorL
    rw [hplan]
    split <;> rfl
  · intro bp pp reg h
    induction h with
    | init =>
      exact ⟨fun an => by simp, fun an => by simp,
        fun e he => absurd he (List.not_mem_nil e)⟩
    | behavior reg animal session sy r lid ts hreach ih =>
      unfold overlayBehaviorL
      split
      · exact ih
      · split
        · exact ih
        · rename_i hs hp
          have hplan : sessionPlanned bp animal session = true := by
            simpa using hp
          refine ⟨?_, ?_, ?_⟩
          · intro an
            rw [List.countP_append]
            simpa using ih.1 an
          · intro an
            rw [List.countP_append]
            simpa using ih.2.1 an
          · intro e he
            rcases List.mem_append.mp he with hmem | hmem
            · exact ih.2.2 e hmem
            · intro hstage
              rcases List.mem_singleton.mp hmem with rfl
              exact ⟨session, rfl, hplan⟩
    | aliquot reg animal c m lid ts hreach ih =>
      unfold overlayAliquotL
      split
      · exact ih
      · rename_i hg
        have hempty : (any_issued_for_stage reg animal "VIRAL").isEmpty = true := by
          simpa using hg
        have hzero := any_issued_empty_countP_zero reg animal "VIRAL" hempty
        refine ⟨?_, ?_, ?_⟩
        · intro an
          rw [List.countP_append]
          by_cases han : animal = an
          · subst han
            rw [hzero]
            simp
          · have : ((animal == an) : Bool) = false := by
              simpa using han
            simp [List.countP_cons, this]
            exact ih.1 an
        · intro an
          rw [List.countP_append]
          simpa using ih.2.1 an
        · intro e he
          rcases List.mem_append.mp he with hmem | hmem
          · exact ih.2.2 e hmem
          · intro hstage
            rcases List.mem_singleton.mp hmem with rfl
            simp at hstage
    | physiology reg animal sy r lid ts hreach ih =>
      unfold overlayPhysiologyL
      split
      · exact ih
      · rename_i hg
        have hempty : (any_issued_for_stage reg animal "PHYSIOLOGY").isEmpty = true := by
          simpa using hg
        have hzero := any_issued_empty_countP_zero reg animal "PHYSIOLOGY" hempty
        split
        · exact ih
        · split
          · exact ih
          · refine ⟨?_, ?_, ?_⟩
            · intro an
              rw [List.countP_append]
              simpa using ih.1 an
            · intro an
              rw [List.countP_append]
              by_cases han : animal = an
              · subst han
                rw [hzero]
                simp
              · have : ((animal == an) : Bool) = false := by
                  simpa using han
                simp [List.countP_cons, this]
                exact ih.2.1 an
            · intro e he
              rcases List.mem_append.mp he with hmem | hmem
              · exact ih.2.2 e hmem
              · intro hstage
                rcases List.mem_singleton.mp hmem with rfl
                simp at hstage
    | inject reg animal stage session dummy check1 check2 lid ts ph hreach ih =>
      unfold injectScanL
      split
      · exact ih
      · split
        · dsimp only
          split <;> exact ih
        · rename_i i heq
          dsimp only
          split
          · exact ih
          · have hp : ∀ (an st : String) (x : EntryL),
              ((injectUpd ts ph x).animal == an && (injectUpd ts ph x).stage == st)
                = (x.animal == an && x.stage == st) := by
              intro an st x
              simp [injectUpd]
            refine ⟨?_, ?_, ?_⟩
            · intro an
              rw [countP_updateAt _ _ (hp an "VIRAL") i reg]
              exact ih.1 an
            · intro an
              rw [countP_updateAt _ _ (hp an "PHYSIOLOGY") i reg]
              exact ih.2.1 an
            · intro e he hstage
              rcases mem_updateAt e _ i reg he with hmem | ⟨x, hx, rfl⟩
              · exact ih.2.2 e hmem hstage
              · have hx2 := ih.2.2 x hx
                simp only [injectUpd] at hstage
                obtain ⟨s, hs, hpl⟩ := hx2 hstage
                exact ⟨s, hs, hpl⟩

/-- C4 counterexample.  In `blindkit_v4_0.py` (lines 680-696) the claim
fails: `cmd_overlay_aliquot` performs no single-issuance check, so after
animal `R001` already holds one issued VIRAL entry, a second VIRAL issuance
for `R001` is not rejected — it appends a second VIRAL entry for the same
animal to the registry. -/
theorem overlay_aliquot_v4_no_rejection_cex :
    ((overlayAliquotV4 [] "R001" "A1" "ABCD" "AB12CD" "t1").length = 1 ∧
     (overlayAliquotV4 [] "R001" "A1" "ABCD" "AB12CD" "t1").countP
       (fun e => e.animal == "R001" && e.stage == "VIRAL" && e.status == "issued") = 1) ∧
    (overlayAliquotV4 (overlayAliquotV4 [] "R001" "A1" "ABCD" "AB12CD" "t1")
        "R001" "A2" "EFGH" "CD34EF" "t2").length = 2 ∧
    (overlayAliquotV4 (overlayAliquotV4 [] "R001" "A1" "ABCD" "AB12CD" "t1")
        "R001" "A2" "EFGH" "CD34EF" "t2").countP
      (fun e => e.animal == "R001" && e.stage == "VIRAL") = 2 := by
  refine ⟨⟨rfl, ?_⟩, rfl, ?_⟩ <;> rfl

/-- Witness for C4 at concrete inputs: a second VIRAL issuance for `R001` is
rejected by v1.6 and leaves the registry unchanged; a registry reached by
one v1.6 VIRAL issuance carries at most one VIRAL entry for `R001`; a
BEHAVIOR issuance for an unplanned session is rejected. -/
theorem issuance_rules_v1_6_witness :
    overlayAliquotL [viralEntryEx] "R001" "C2" "ZZZZ" "L2" "t2" = [viralEntryEx] ∧
    ((overlayAliquotL [] "R001" "C1" "ABCD" "L1" "t1").countP
      (fun e => e.animal == "R001" && e.stage == "VIRAL")) ≤ 1 ∧
    overlayBehaviorL [("R001", [(2, "A")])] [] "R001" 3 "S1" "AAAA" "L3" "t3" = [] :=
  ⟨issuance_rules_v1_6.1 [viralEntryEx] "R001" "C2" "ZZZZ" "L2" "t2"
      ⟨viralEntryEx, List.mem_singleton.mpr rfl, rfl, rfl⟩,
   (issuance_rules_v1_6.2.2.2.2 [("R001", [(2, "A")])] []
      (overlayAliquotL [] "R001" "C1" "ABCD" "L1" "t1")
      (ReachableL.aliquot [] "R001" "C1" "ABCD" "L1" "t1" ReachableL.init)).1 "R001",
   issuance_rules_v1_6.2.2.2.1 [("R001", [(2, "A")])] [] "R001" 3 "S1" "AAAA" "L3" "t3"
     (by decide)⟩

/-! ### C3 — audit chain lemmas -/

theorem getLast?_cons_map_lastHashOpt (t : List StoredEvent) :
    ∀ e : StoredEvent, ((e :: t).getLast?).map (fun x => x.event_hash)
      = lastHashOpt (some e.event_hash) t := by
  induction t with
  | nil => intro e; rfl
  | cons f t2 ih =>
    intro e
    rw [List.getLast?_cons_cons]
    exact ih f

theorem getLast?_map_lastHashOpt (l : List StoredEvent) :
    (l.getLast?).map (fun x => x.event_hash) = lastHashOpt none l := by
  cases l with
  | nil => rfl
  | cons e t => exact getLast?_cons_map_lastHashOpt t e

theorem chained_snoc (d : EventData) :
    ∀ (l : List StoredEvent) (prev : Option String), Chained prev l →
      Chained prev (l ++ [mkStored d (lastHashOpt prev l)]) := by
  intro l
  induction l with
  | nil =>
    intro prev _
    exact ⟨rfl, rfl, trivial⟩
  | cons e t ih =>
    intro prev h
    obtain ⟨hp, hh, ht⟩ := h
    exact ⟨hp, hh, ih (some e.event_hash) ht⟩

theorem append_log_chained (l : List StoredEvent) (d : EventData) (prev : Option String)
    (hprev : prev = none ∨ l ≠ []) (h : Chained prev l) : Chained prev (append_log l d) := by
  unfold append_log
  have hsnoc := chained_snoc d l prev h
  rcases hprev with rfl | hne
  · rwa [getLast?_map_lastHashOpt]
  · cases l with
    | nil => exact absurd rfl hne
    | cons e t =>
      rw [getLast?_cons_map_lastHashOpt t e]
      exact hsnoc

theorem buildLog_chained (ds : List EventData) : Chained none (buildLog ds) := by
  suffices h : ∀ l : List StoredEvent, Chained none l → Chained none (ds.foldl append_log l) by
    exact h [] trivial
  induction ds with
  | nil => intro l hl; exact hl
  | cons d t ih =>
    intro l hl
    exact ih (append_log l d) (append_log_chained l d none (Or.inl rfl) hl)

theorem verifyAux_chained (l : List StoredEvent) :
    ∀ (prev : Option String) (i : Nat), Chained prev l → verifyAux prev i l = none := by
  induction l with
  | nil => intro prev i _; rfl
  | cons e t ih =>
    intro prev i h
    obtain ⟨hp, hh, ht⟩ := h
    unfold verifyAux
    rw [if_neg (by rw [← hh]; exact fun hcon => hcon rfl)]
    rw [if_neg (by rw [hp]; exact fun hcon => hcon rfl)]
    exact ih (some e.event_hash) (i + 1) ht

theorem verifyAux_set (l : List StoredEvent) :
    ∀ (prev : Option String) (i j : Nat) (e' : StoredEvent) (hj : j < l.length),
      Chained prev l →
      (chkHash e' ≠ e'.event_hash ∨ e'.prev_hash ≠ (l.get ⟨j, hj⟩).prev_hash) →
      verifyAux prev i (l.set j e') = some (i + j) := by
  induction l with
  | nil =>
    intro prev i j e' hj
    exact absurd hj (Nat.not_lt_zero j)
  | cons e t ih =>
    intro prev i j e' hj h hmut
    obtain ⟨hp, hh, ht⟩ := h
    cases j with
    | zero =>
      rw [List.set_cons_zero]
      unfold verifyAux
      by_cases h1 : chkHash e' ≠ e'.event_hash
      · rw [if_pos h1]
        rfl
      · rw [if_neg h1]
        have h2 : e'.prev_hash ≠ prev := by
          rcases hmut with hm | hm
          · exact absurd hm h1
          · rw [← hp]
            exact hm
        rw [if_pos h2]
        rfl
    | succ j2 =>
      rw [List.set_cons_succ]
      unfold verifyAux
      rw [if_neg (by rw [← hh]; exact fun hcon => hcon rfl)]
      rw [if_neg (by rw [hp]; exact fun hcon => hcon rfl)]
      have hj2 : j2 < t.length := by simpa using Nat.lt_of_succ_lt_succ hj
      have := ih (some e.event_hash) (i + 1) j2 e' hj2 ht (by
        rcases hmut with hm | hm
        · exact Or.inl hm
        · exact Or.inr hm)
      rw [this]
      congr 1
      omega

theorem verifyAux_erase (l : List StoredEvent) :
    ∀ (prev : Option String) (i j : Nat), Chained prev l → j + 1 < l.length →
      hashAt l j ≠ (if j = 0 then prev else hashAt l (j - 1)) →
      verifyAux prev i (l.eraseIdx j) = some (i + j) := by
  induction l with
  | nil =>
    intro prev i j _ hj
    exact absurd hj (by simp)
  | cons e t ih =>
    intro prev i j h hj hne
    obtain ⟨hp, hh, ht⟩ := h
    cases j with
    | zero =>
      rw [show (e :: t).eraseIdx 0 = t from rfl]
      cases t with
      | nil => simp at hj
      | cons f t2 =>
        obtain ⟨hpf, hhf, htf⟩ := ht
        unfold verifyAux
        rw [if_neg (by rw [← hhf]; exact fun hcon => hcon rfl)]
        have hfp : f.prev_hash ≠ prev := by
          rw [hpf]
          intro hcon
          apply hne
          rw [if_pos rfl]
          exact hcon
        rw [if_pos hfp]
        rfl
    | succ j2 =>
      rw [show (e :: t).eraseIdx (j2 + 1) = e :: t.eraseIdx j2 from rfl]
      unfold verifyAux
      rw [if_neg (by rw [← hh]; exact fun hcon => hcon rfl)]
      rw [if_neg (by rw [hp]; exact fun hcon => hcon rfl)]
      have hj2 : j2 + 1 < t.length := by simpa using Nat.lt_of_succ_lt_succ hj
      have hne2 : hashAt t j2 ≠ (if j2 = 0 then some e.event_hash else hashAt t (j2 - 1)) := by
        cases j2 with
        | zero =>
          rw [if_pos rfl]
          have : hashAt (e :: t) (0 + 1) = hashAt t 0 := rfl
          intro hcon
          apply hne
          rw [show hashAt (e :: t) (0 + 1) = hashAt t 0 from rfl]
          rw [if_neg (by omega)]
          rw [show (0 + 1 - 1 : Nat) = 0 from rfl]
          rw [show hashAt (e :: t) 0 = some e.event_hash from rfl]
          exact hcon
        | succ j3 =>
          rw [if_neg (by omega)]
          intro hcon
          apply hne
          rw [show hashAt (e :: t) (j3 + 1 + 1) = hashAt t (j3 + 1) from rfl]
          rw [if_neg (by omega)]
          rw [show (j3 + 1 + 1 - 1 : Nat) = j3 + 1 from rfl]
          rw [show hashAt (e :: t) (j3 + 1) = hashAt t j3 from rfl]
          rw [show (j3 + 1 - 1 : Nat) = j3 from rfl] at hcon
          exact hcon
      have := ih (some e.event_hash) (i + 1) j2 ht hj2 hne2
      rw [this]
      congr 1
      omega

/-- C3 as amended.  For every sequence of appended audit events the built
log satisfies the chain discipline (each event stores `prev_hash` equal to
the previous event's `event_hash`, null for the first, and `event_hash`
equal to the SHA-256 of the sorted-key serialization of its other fields),
and verification walking the log in order reports zero breaks.  Replacing
the stored event at any position `j` by a record whose recomputed hash
differs from its stored `event_hash` (true for any single-field mutation of
the payload or of `event_hash` itself, short of a SHA-256 collision) or
whose `prev_hash` changed, makes verification abort exactly at position `j`;
and removing any one event other than the last (position `j` with a
successor, when adjacent stored hashes differ — automatic for `j = 0`)
makes verification abort at position `j`.  Removing the final event is not
detected (see the counterexample). -/
theorem audit_chain_tamper_evident (ds : List EventData) :
    Chained none (buildLog ds) ∧
    verifyLog (buildLog ds) = none ∧
    (∀ (j : Nat) (hj : j < (buildLog ds).length) (e' : StoredEvent),
      (chkHash e' ≠ e'.event_hash ∨ e'.prev_hash ≠ ((buildLog ds).get ⟨j, hj⟩).prev_hash) →
      verifyLog ((buildLog ds).set j e') = some j) ∧
    (∀ j : Nat, j + 1 < (buildLog ds).length →
      hashAt (buildLog ds) j ≠ (if j = 0 then none else hashAt (buildLog ds) (j - 1)) →
      verifyLog ((buildLog ds).eraseIdx j) = some j) := by
  have hch := buildLog_chained ds
  refine ⟨hch, verifyAux_chained (buildLog ds) none 0 hch, ?_, ?_⟩
  · intro j hj e' hmut
    have := verifyAux_set (buildLog ds) none 0 j e' hj hch hmut
    rwa [Nat.zero_add] at this
  · intro j hj hne
    have := verifyAux_erase (buildLog ds) none 0 j hch hj hne
    rwa [Nat.zero_add] at this

/-- C3 counterexample.  Removing the last event of a chained log is not
detected: a one-event log verifies clean, and after erasing its only (hence
last) event, verification of the remaining empty log still reports zero
breaks, where the claim demands a reported break for the removal of any one
event. -/
theorem audit_remove_last_undetected_cex :
    (buildLog [evWitness]).length = 1 ∧
    verifyLog (buildLog [evWitness]) = none ∧
    verifyLog ((buildLog [evWitness]).eraseIdx 0) = none :=
  ⟨rfl, verifyAux_chained (buildLog [evWitness]) none 0 (buildLog_chained [evWitness]), rfl⟩

set_option maxRecDepth 8000

/-- Witness for C3 on a concrete two-event log: the fresh log verifies with
no break; overwriting the second event's stored `event_hash` makes
verification abort at position 1; removing the first event makes
verification abort at position 0. -/
theorem audit_chain_tamper_evident_witness :
    verifyLog (buildLog [evWitness, evWitness2]) = none ∧
    verifyLog ((buildLog [evWitness, evWitness2]).set 1 tamperedEv) = some 1 ∧
    verifyLog ((buildLog [evWitness, evWitness2]).eraseIdx 0) = some 0 :=
  ⟨(audit_chain_tamper_evident [evWitness, evWitness2]).2.1,
   (audit_chain_tamper_evident [evWitness, evWitness2]).2.2.1 1 (by decide) tamperedEv
     (Or.inl (by decide)),
   (audit_chain_tamper_evident [evWitness, evWitness2]).2.2.2 0 (by decide) (by decide)⟩

/-! ### C7 — lexicographic order lemmas -/

theorem char_toNat_inj (a b : Char) (h : a.toNat = b.toNat) : a = b := by
  cases a with
  | mk av ap =>
    cases b with
    | mk bv bp =>
      have : av = bv := by
        apply UInt32.ext
        simpa [Char.toNat] using h
      subst this
      rfl

theorem lexLtB_cons_cons (a b : Char) (as bs : List Char) :
    lexLtB (a :: as) (b :: bs) = true ↔
      (a.toNat < b.toNat ∨ (a = b ∧ lexLtB as bs = true)) := by
  simp only [lexLtB]
  split_ifs with h1 h2
  · simp [h1]
  · constructor
    · intro h
      exact absurd h (by simp)
    · intro h
      rcases h with h | ⟨h, -⟩
      · exact absurd h h1
      · subst h
        omega
  · have heq : a = b := char_toNat_inj a b (by omega)
    subst heq
    simp [h1]

theorem lexLtB_asymm : ∀ (s t : List Char), lexLtB s t = true → lexLtB t s = false := by
  intro s
  induction s with
  | nil => intro t h; cases t <;> simp_all [lexLtB]
  | cons a as ih =>
    intro t h
    cases t with
    | nil => simp [lexLtB] at h
    | cons b bs =>
      rcases (lexLtB_cons_cons a b as bs).mp h with h1 | ⟨rfl, h1⟩
      · by_contra hc
        rcases (lexLtB_cons_cons b a bs as).mp (by simpa using hc) with h2 | ⟨h2, -⟩
        · omega
        · subst h2
          omega
      · by_contra hc
        rcases (lexLtB_cons_cons a a bs as).mp (by simpa using hc) with h2 | ⟨-, h2⟩
        · omega
        · rw [ih bs h1] at h2
          exact Bool.false_ne_true h2

theorem lexLtB_trans : ∀ (s t u : List Char),
    lexLtB s t = true → lexLtB t u = true → lexLtB s u = true := by
  intro s
  induction s with
  | nil =>
    intro t u h1 h2
    cases t with
    | nil => simp [lexLtB] at h1
    | cons b bs =>
      cases u with
      | nil => simp [lexLtB] at h2
      | cons c cs => rfl
  | cons a as ih =>
    intro t u h1 h2
    cases t with
    | nil => simp [lexLtB] at h1
    | cons b bs =>
      cases u with
      | nil => simp [lexLtB] at h2
      | cons c cs =>
        rcases (lexLtB_cons_cons a b as bs).mp h1 with hab | ⟨heq1, hab⟩
        · rcases (lexLtB_cons_cons b c bs cs).mp h2 with hbc | ⟨heq2, hbc2⟩
          · exact (lexLtB_cons_cons a c as cs).mpr (Or.inl (by omega))
          · subst heq2
            exact (lexLtB_cons_cons a b as cs).mpr (Or.inl hab)
        · subst heq1
          rcases (lexLtB_cons_cons a c bs cs).mp h2 with hbc | ⟨heq2, hbc2⟩
          · exact (lexLtB_cons_cons a c as cs).mpr (Or.inl hbc)
          · subst heq2
            exact (lexLtB_cons_cons a a as cs).mpr (Or.inr ⟨rfl, ih bs cs hab hbc2⟩)

theorem lexLtB_trichotomy : ∀ (s t : List Char),
    lexLtB s t = true ∨ lexLtB t s = true ∨ s = t := by
  intro s
  induction s with
  | nil => intro t; cases t <;> simp [lexLtB]
  | cons a as ih =>
    intro t
    cases t with
    | nil => simp [lexLtB]
    | cons b bs =>
      by_cases hab : a.toNat < b.toNat
      · exact Or.inl ((lexLtB_cons_cons a b as bs).mpr (Or.inl hab))
      · by_cases hba : b.toNat < a.toNat
        · exact Or.inr (Or.inl ((lexLtB_cons_cons b a bs as).mpr (Or.inl hba)))
        · have heq : a = b := char_toNat_inj a b (by omega)
          subst heq
          rcases ih bs with h | h | h
          · exact Or.inl ((lexLtB_cons_cons a a as bs).mpr (Or.inr ⟨rfl, h⟩))
          · exact Or.inr (Or.inl ((lexLtB_cons_cons a a bs as).mpr (Or.inr ⟨rfl, h⟩)))
          · exact Or.inr (Or.inr (by rw [h]))

theorem strLtB_asymm (s t : String) (h : strLtB s t = true) : strLtB t s = false :=
  lexLtB_asymm s.data t.data h

theorem strLtB_trans (s t u : String) (h1 : strLtB s t = true) (h2 : strLtB t u = true) :
    strLtB s u = true :=
  lexLtB_trans s.data t.data u.data h1 h2

theorem strLtB_trichotomy (s t : String) :
    strLtB s t = true ∨ strLtB t s = true ∨ s = t := by
  rcases lexLtB_trichotomy s.data t.data with h | h | h
  · exact Or.inl h
  · exact Or.inr (Or.inl h)
  · refine Or.inr (Or.inr ?_)
    cases s
    cases t
    exact congrArg String.mk (by simpa using h)

theorem tupLt_iff (a b : Nat × Nat × String) :
    tupLt a b = true ↔
      (a.1 < b.1 ∨ (a.1 = b.1 ∧ (a.2.1 < b.2.1 ∨ (a.2.1 = b.2.1 ∧ strLtB a.2.2 b.2.2 = true)))) := by
  unfold tupLt
  split_ifs with h1 h2
  · simp only [decide_eq_true_eq]
    constructor
    · intro h
      exact Or.inl h
    · intro h
      rcases h with h | ⟨h, -⟩
      · exact h
      · exact absurd h h1
  · simp only [decide_eq_true_eq]
    constructor
    · intro h
      exact Or.inr ⟨by omega, Or.inl h⟩
    · intro h
      rcases h with h | ⟨-, h | ⟨h, -⟩⟩
      · exact absurd h (by omega)
      · exact h
      · exact absurd h h2
  · constructor
    · intro h
      exact Or.inr ⟨by omega, Or.inr ⟨by omega, h⟩⟩
    · intro h
      rcases h with h | ⟨-, h | ⟨-, h⟩⟩
      · exact absurd h (by omega)
      · exact absurd h (by omega)
      · exact h

theorem tupLt_asymm (a b : Nat × Nat × String) (h : tupLt a b = true) : tupLt b a = false := by
  by_contra hc
  have hba := (tupLt_iff b a).mp (by simpa using hc)
  have hab := (tupLt_iff a b).mp h
  rcases hab with h1 | ⟨h1, h2 | ⟨h2, h3⟩⟩ <;> rcases hba with g1 | ⟨g1, g2 | ⟨g2, g3⟩⟩ <;>
    try omega
  rw [strLtB_asymm _ _ h3] at g3
  exact Bool.false_ne_true g3

theorem tupLt_trans (a b c : Nat × Nat × String)
    (h1 : tupLt a b = true) (h2 : tupLt b c = true) : tupLt a c = true := by
  have hab := (tupLt_iff a b).mp h1
  have hbc := (tupLt_iff b c).mp h2
  refine (tupLt_iff a c).mpr ?_
  rcases hab with h1 | ⟨h1, h2a | ⟨h2a, h3a⟩⟩ <;> rcases hbc with g1 | ⟨g1, g2 | ⟨g2, g3⟩⟩ <;>
    try (left ; omega)
  · exact Or.inr ⟨by omega, Or.inl (by omega)⟩
  · exact Or.inr ⟨by omega, Or.inl (by omega)⟩
  · exact Or.inr ⟨by omega, Or.inl (by omega)⟩
  · exact Or.inr ⟨by omega, Or.inr ⟨by omega, strLtB_trans _ _ _ h3a g3⟩⟩

theorem tupLt_total_eq (a b : Nat × Nat × String)
    (h1 : tupLt a b = false) (h2 : tupLt b a = false) : a = b := by
  have hne1 : ¬(tupLt a b = true) := by rw [h1]; exact Bool.false_ne_true
  have hne2 : ¬(tupLt b a = true) := by rw [h2]; exact Bool.false_ne_true
  obtain ⟨m1, n1, s1⟩ := a
  obtain ⟨m2, n2, s2⟩ := b
  have hm : m1 = m2 := by
    by_contra hc
    rcases Nat.lt_or_ge m1 m2 with h | h
    · exact hne1 ((tupLt_iff (m1, n1, s1) (m2, n2, s2)).mpr (Or.inl h))
    · exact hne2 ((tupLt_iff (m2, n2, s2) (m1, n1, s1)).mpr (Or.inl (by simp; omega)))
  subst hm
  have hn : n1 = n2 := by
    by_contra hc
    rcases Nat.lt_or_ge n1 n2 with h | h
    · exact hne1 ((tupLt_iff (m1, n1, s1) (m1, n2, s2)).mpr
        (Or.inr ⟨rfl, Or.inl (by simp ; exact h)⟩))
    · exact hne2 ((tupLt_iff (m1, n2, s2) (m1, n1, s1)).mpr
        (Or.inr ⟨rfl, Or.inl (by simp ; omega)⟩))
  subst hn
  have hs : s1 = s2 := by
    rcases strLtB_trichotomy s1 s2 with h | h | h
    · exact absurd ((tupLt_iff (m1, n1, s1) (m1, n1, s2)).mpr
        (Or.inr ⟨rfl, Or.inr ⟨rfl, h⟩⟩)) hne1
    · exact absurd ((tupLt_iff (m1, n1, s2) (m1, n1, s1)).mpr
        (Or.inr ⟨rfl, Or.inr ⟨rfl, h⟩⟩)) hne2
    · exact h
  rw [hs]

theorem keyLe_total (a b : PFile) : (keyLe a b || keyLe b a) = true := by
  unfold keyLe
  by_contra hc
  simp only [Bool.or_eq_true, Bool.not_eq_true] at hc
  push_neg at hc
  obtain ⟨h1, h2⟩ := hc
  have g1 : keyLt b a = true := by
    cases hk : keyLt b a
    · rw [hk] at h1; exact absurd rfl h1
    · rfl
  have g2 : keyLt a b = true := by
    cases hk : keyLt a b
    · rw [hk] at h2; exact absurd rfl h2
    · rfl
  have := tupLt_asymm _ _ g1
  unfold keyLt at g2 this
  rw [this] at g2
  exact Bool.false_ne_true g2

theorem keyLe_trans (a b c : PFile) (h1 : keyLe a b = true) (h2 : keyLe b c = true) :
    keyLe a c = true := by
  unfold keyLe keyLt at h1 h2 ⊢
  simp only [Bool.not_eq_true'] at h1 h2 ⊢
  cases hca : tupLt (sortKey c) (sortKey a)
  · rfl
  · exfalso
    cases hbc : tupLt (sortKey b) (sortKey c)
    · cases hcb : tupLt (sortKey c) (sortKey b)
      · have heq : sortKey c = sortKey b := tupLt_total_eq _ _ hcb hbc
        rw [heq] at hca
        rw [hca] at h1
        exact absurd h1 (by simp)
      · rw [hcb] at h2
        exact absurd h2 (by simp)
    · have hka := tupLt_trans _ _ _ hbc hca
      rw [hka] at h1
      exact absurd h1 (by simp)

theorem insertLe_perm (le : α → α → Bool) (x : α) :
    ∀ l : List α, (insertLe le x l).Perm (x :: l) := by
  intro l
  induction l with
  | nil => exact List.Perm.refl _
  | cons y t ih =>
    unfold insertLe
    by_cases h : le x y
    · rw [if_pos h]
    · rw [if_neg h]
      exact (ih.cons y).trans (List.Perm.swap x y t)

theorem insSortBy_perm (le : α → α → Bool) :
    ∀ l : List α, (insSortBy le l).Perm l := by
  intro l
  induction l with
  | nil => exact List.Perm.refl _
  | cons x t ih =>
    exact (insertLe_perm le x (insSortBy le t)).trans (ih.cons x)

theorem mem_insertLe (le : α → α → Bool) (x a : α) (l : List α)
    (h : a ∈ insertLe le x l) : a = x ∨ a ∈ l :=
  List.mem_cons.mp ((insertLe_perm le x l).mem_iff.mp h)

theorem pairwise_insertLe (le : α → α → Bool)
    (htot : ∀ a b, (le a b || le b a) = true)
    (htr : ∀ a b c, le a b = true → le b c = true → le a c = true) (x : α) :
    ∀ l : List α, List.Pairwise (fun a b => le a b = true) l →
      List.Pairwise (fun a b => le a b = true) (insertLe le x l) := by
  intro l
  induction l with
  | nil => intro _; exact List.pairwise_singleton _ x
  | cons y t ih =>
    intro h
    obtain ⟨hy, ht⟩ := List.pairwise_cons.mp h
    unfold insertLe
    by_cases hxy : le x y
    · rw [if_pos hxy]
      refine List.pairwise_cons.mpr ⟨?_, h⟩
      intro b hb
      rcases List.mem_cons.mp hb with rfl | hbt
      · exact hxy
      · exact htr x y b hxy (hy b hbt)
    · rw [if_neg hxy]
      refine List.pairwise_cons.mpr ⟨?_, ih ht⟩
      intro b hb
      rcases mem_insertLe le x b t hb with heq | hbt
      · subst heq
        have htot2 := htot b y
        cases hby : le b y
        · rw [hby] at htot2
          simpa using htot2
        · exact absurd hby hxy
      · exact hy b hbt

theorem pairwise_insSortBy (le : α → α → Bool)
    (htot : ∀ a b, (le a b || le b a) = true)
    (htr : ∀ a b c, le a b = true → le b c = true → le a c = true) :
    ∀ l : List α, List.Pairwise (fun a b => le a b = true) (insSortBy le l) := by
  intro l
  induction l with
  | nil => exact List.Pairwise.nil
  | cons x t ih => exact pairwise_insertLe le htot htr x (insSortBy le t) ih

theorem sorted_perm_eq (R : α → α → Prop) (hasym : ∀ a b, R a b → R b a → False) :
    ∀ l1 l2 : List α, l1.Perm l2 →
      List.Pairwise R l1 → List.Pairwise R l2 → l1 = l2 := by
  intro l1
  induction l1 with
  | nil =>
    intro l2 hp _ _
    exact (List.Perm.nil_eq hp).symm ▸ rfl
  | cons a t1 ih =>
    intro l2 hp h1 h2
    cases l2 with
    | nil => exact absurd hp.symm (by simp)
    | cons b t2 =>
      by_cases hab : a = b
      · subst hab
        obtain ⟨ha1, ht1⟩ := List.pairwise_cons.mp h1
        obtain ⟨ha2, ht2⟩ := List.pairwise_cons.mp h2
        rw [ih t2 (List.Perm.cons_inv hp) ht1 ht2]
      · exfalso
        have hbmem : b ∈ a :: t1 := hp.mem_iff.mpr (List.mem_cons_self b t2)
        have hamem : a ∈ b :: t2 := hp.mem_iff.mp (List.mem_cons_self a t1)
        rcases List.mem_cons.mp hbmem with h' | hbt1
        · exact hab h'.symm
        · rcases List.mem_cons.mp hamem with h' | hat2
          · exact hab h'
          · exact hasym a b ((List.pairwise_cons.mp h1).1 b hbt1)
              ((List.pairwise_cons.mp h2).1 a hat2)

theorem digitChar_toNat : ∀ d : Nat, d < 10 → (digitChar d).toNat = 48 + d := by decide

theorem pad3_data (n : Nat) (h : n < 1000) :
    (pad3 n).data = [digitChar (n / 100), digitChar (n / 10 % 10), digitChar (n % 10)] := by
  unfold pad3
  rw [if_pos h]

theorem pad3_length (n : Nat) (h : n < 1000) : (pad3 n).data.length = 3 := by
  rw [pad3_data n h]
  rfl

theorem pad3_lt (a b : Nat) (ha : a < 1000) (hb : b < 1000) (h : a < b) :
    lexLtB (pad3 a).data (pad3 b).data = true := by
  rw [pad3_data a ha, pad3_data b hb]
  rcases Nat.lt_trichotomy (a / 100) (b / 100) with h2 | h2 | h2
  · refine (lexLtB_cons_cons _ _ _ _).mpr (Or.inl ?_)
    rw [digitChar_toNat _ (by omega), digitChar_toNat _ (by omega)]
    omega
  · rw [h2]
    refine (lexLtB_cons_cons _ _ _ _).mpr (Or.inr ⟨rfl, ?_⟩)
    rcases Nat.lt_trichotomy (a / 10 % 10) (b / 10 % 10) with h1 | h1 | h1
    · refine (lexLtB_cons_cons _ _ _ _).mpr (Or.inl ?_)
      rw [digitChar_toNat _ (by omega), digitChar_toNat _ (by omega)]
      omega
    · rw [h1]
      refine (lexLtB_cons_cons _ _ _ _).mpr (Or.inr ⟨rfl, ?_⟩)
      refine (lexLtB_cons_cons _ _ _ _).mpr (Or.inl ?_)
      rw [digitChar_toNat _ (by omega), digitChar_toNat _ (by omega)]
      omega
    · omega
  · omega

theorem lexLtB_append_same : ∀ (p r1 r2 : List Char),
    lexLtB (p ++ r1) (p ++ r2) = lexLtB r1 r2 := by
  intro p
  induction p with
  | nil => intro r1 r2; rfl
  | cons a t ih =>
    intro r1 r2
    show lexLtB (a :: (t ++ r1)) (a :: (t ++ r2)) = _
    simp only [lexLtB, Nat.lt_irrefl, if_neg (by omega : ¬a.toNat < a.toNat)]
    exact ih r1 r2

theorem lexLtB_append_of_lt : ∀ (p q : List Char), p.length = q.length →
    lexLtB p q = true → ∀ r1 r2 : List Char, lexLtB (p ++ r1) (q ++ r2) = true := by
  intro p
  induction p with
  | nil =>
    intro q hlen h
    cases q with
    | nil => simp [lexLtB] at h
    | cons b bs => simp at hlen
  | cons a as ih =>
    intro q hlen h
    cases q with
    | nil => simp at hlen
    | cons b bs =>
      intro r1 r2
      rcases (lexLtB_cons_cons a b as bs).mp h with h1 | ⟨heq, h1⟩
      · exact (lexLtB_cons_cons a b _ _).mpr (Or.inl h1)
      · subst heq
        exact (lexLtB_cons_cons a a _ _).mpr
          (Or.inr ⟨rfl, ih bs (by simpa using hlen) h1 r1 r2⟩)

theorem dstName_data (f : PFile) :
    (dstName f).data =
      "IDX_".data ++ ((pad3 f.M).data ++ ("-".data ++ ((pad3 f.N).data ++ f.ext.data))) := by
  simp [dstName, List.append_assoc]

theorem strLtB_dstName (f g : PFile) (hfM : f.M ≤ 999) (hfN : f.N ≤ 999)
    (hgM : g.M ≤ 999) (hgN : g.N ≤ 999) (h : pairLt (f.M, f.N) (g.M, g.N)) :
    strLtB (dstName f) (dstName g) = true := by
  show lexLtB (dstName f).data (dstName g).data = true
  rw [dstName_data f, dstName_data g]
  rw [lexLtB_append_same]
  rcases h with hM | ⟨hM, hN⟩
  · exact lexLtB_append_of_lt (pad3 f.M).data (pad3 g.M).data
      (by rw [pad3_length _ (by omega), pad3_length _ (by omega)])
      (pad3_lt f.M g.M (by omega) (by omega) hM) _ _
  · simp only at hM
    rw [hM, lexLtB_append_same, lexLtB_append_same]
    exact lexLtB_append_of_lt (pad3 f.N).data (pad3 g.N).data
      (by rw [pad3_length _ (by omega), pad3_length _ (by omega)])
      (pad3_lt f.N g.N (by omega) (by omega) (by simpa using hN)) _ _

theorem pairLt_asymm (a b : Nat × Nat) (h1 : pairLt a b) (h2 : pairLt b a) : False := by
  rcases h1 with h1 | ⟨h1a, h1b⟩ <;> rcases h2 with h2 | ⟨h2a, h2b⟩ <;> omega

theorem keyLe_ne_pairLt (f g : PFile) (hle : keyLe f g = true)
    (hne : (f.M, f.N) ≠ (g.M, g.N)) : pairLt (f.M, f.N) (g.M, g.N) := by
  unfold keyLe keyLt at hle
  simp only [Bool.not_eq_true'] at hle
  rcases Nat.lt_trichotomy f.M g.M with h | h | h
  · exact Or.inl h
  · rcases Nat.lt_trichotomy f.N g.N with h2 | h2 | h2
    · exact Or.inr ⟨h, h2⟩
    · exact absurd (by rw [h, h2]) hne
    · exfalso
      have : tupLt (sortKey g) (sortKey f) = true :=
        (tupLt_iff _ _).mpr (Or.inr ⟨by simp [sortKey, h], Or.inl (by simp [sortKey] ; omega)⟩)
      rw [this] at hle
      exact absurd hle (by simp)
  · exfalso
    have : tupLt (sortKey g) (sortKey f) = true :=
      (tupLt_iff _ _).mpr (Or.inl (by simp [sortKey] ; omega))
    rw [this] at hle
    exact absurd hle (by simp)

theorem blindOrder_perm (files : List PFile) : (blindOrder files).Perm files :=
  (insSortBy_perm keyLe (insSortBy pathLe files)).trans (insSortBy_perm pathLe files)

theorem blindOrder_pairwise_pairLt (files : List PFile)
    (hdis : List.Pairwise (fun f g => (f.M, f.N) ≠ (g.M, g.N)) files) :
    List.Pairwise (fun f g => pairLt (f.M, f.N) (g.M, g.N)) (blindOrder files) := by
  have hpw : List.Pairwise (fun a b => keyLe a b = true) (blindOrder files) :=
    pairwise_insSortBy keyLe keyLe_total keyLe_trans (insSortBy pathLe files)
  have hdis2 : List.Pairwise (fun f g => (f.M, f.N) ≠ (g.M, g.N)) (blindOrder files) :=
    (List.Perm.pairwise_iff (fun h heq => h heq.symm) (blindOrder_perm files)).mpr hdis
  exact (hpw.and hdis2).imp (fun h => keyLe_ne_pairLt _ _ h.1 h.2)

/-- C7 as amended.  For a per-animal batch in which every file parses, the
declared `(M, N)` pairs are pairwise distinct, and every declared index fits
the three-digit `IDX_MMM-NNN` padding (`M, N ≤ 999`): the emission order of
`blind_animal_folder` is independent of the order in which the file system
enumerated the sources, it is a permutation of the batch sorted strictly by
the declared `(M, N)` pairs, and the blinded destination filenames along
that order are strictly increasing in lexicographic (code-point) order — so
the blinded names, sorted lexicographically, list the images exactly in
declared-index order.  Without the `≤ 999` bound the claim fails (see the
counterexample). -/
theorem blinded_names_follow_index_order (files files' : List PFile)
    (hperm : files'.Perm files)
    (hdis : List.Pairwise (fun f g => (f.M, f.N) ≠ (g.M, g.N)) files)
    (hbound : ∀ f ∈ files, f.M ≤ 999 ∧ f.N ≤ 999) :
    blindOrder files' = blindOrder files ∧
    (blindOrder files).Perm files ∧
    List.Pairwise (fun f g => pairLt (f.M, f.N) (g.M, g.N)) (blindOrder files) ∧
    List.Pairwise (fun s t => strLtB s t = true) ((blindOrder files).map dstName) := by
  have hdis' : List.Pairwise (fun f g => (f.M, f.N) ≠ (g.M, g.N)) files' :=
    (List.Perm.pairwise_iff (fun h heq => h heq.symm) hperm).mpr hdis
  have hsorted := blindOrder_pairwise_pairLt files hdis
  have hsorted' := blindOrder_pairwise_pairLt files' hdis'
  refine ⟨?_, blindOrder_perm files, hsorted, ?_⟩
  · refine sorted_perm_eq (fun f g => pairLt (f.M, f.N) (g.M, g.N))
      (fun a b h1 h2 => pairLt_asymm _ _ h1 h2) _ _ ?_ hsorted' hsorted
    exact ((blindOrder_perm files').trans hperm).trans (blindOrder_perm files).symm
  · refine List.pairwise_map.mpr (hsorted.imp_of_mem ?_)
    intro a b ha hb hab
    have hamem : a ∈ files := ((blindOrder_perm files).mem_iff).mp ha
    have hbmem : b ∈ files := ((blindOrder_perm files).mem_iff).mp hb
    obtain ⟨haM, haN⟩ := hbound a hamem
    obtain ⟨hbM, hbN⟩ := hbound b hbmem
    exact strLtB_dstName a b haM haN hbM hbN hab

/-- C7 counterexample.  With declared indices `(200, 1)` and `(1000, 1)` —
distinct pairs, but `M = 1000` exceeds the three-digit padding — the
pipeline correctly emits the `M = 200` file first (numeric order), yet its
blinded name `IDX_200-001.jpg` sorts lexicographically after
`IDX_1000-001.jpg`, because `"2" > "1"` at the fourth character: the blinded
filenames, sorted lexicographically, do not list the images in declared
`(M, N)` order. -/
theorem blinded_name_order_cex :
    blindOrder [pf200, pf1000] = [pf200, pf1000] ∧
    (pf200.M, pf200.N) ≠ (pf1000.M, pf1000.N) ∧
    dstName pf200 = "IDX_200-001.jpg" ∧
    dstName pf1000 = "IDX_1000-001.jpg" ∧
    strLtB (dstName pf1000) (dstName pf200) = true ∧
    lexSortedB ((blindOrder [pf200, pf1000]).map dstName) = false := by
  refine ⟨?_, by decide, ?_, ?_, ?_, ?_⟩ <;> rfl

/-- Witness for C7 at a concrete two-file batch enumerated in two different
orders. -/
theorem blinded_names_follow_index_order_witness :
    blindOrder [pfW2, pfW1] = blindOrder [pfW1, pfW2] ∧
    (blindOrder [pfW1, pfW2]).Perm [pfW1, pfW2] ∧
    List.Pairwise (fun f g => pairLt (f.M, f.N) (g.M, g.N)) (blindOrder [pfW1, pfW2]) ∧
    List.Pairwise (fun s t => strLtB s t = true) ((blindOrder [pfW1, pfW2]).map dstName) :=
  blinded_names_follow_index_order [pfW1, pfW2] [pfW2, pfW1]
    (List.Perm.swap pfW1 pfW2 []) (by decide) (by decide)

/-! ### C6 — crossref verifier: pass / warn / fail -/

theorem crossrefCounts_go (fs : FS) (inRoot outRoot : String) (relax : Bool) (thr : Nat) :
    ∀ (recs : List CrossRec) (a b : Nat),
      recs.foldl
        (fun acc rec =>
          let o1 := checkSrc fs inRoot relax thr rec
          let o2 := checkDst fs outRoot relax thr rec
          ((acc.1 + if o1 = .error then 1 else 0) + (if o2 = .error then 1 else 0),
           (acc.2 + if o1 = .warn then 1 else 0) + (if o2 = .warn then 1 else 0)))
        (a, b) =
      (a + (recs.flatMap (recOutcomes fs inRoot outRoot relax thr)).countP (fun o => o == .error),
       b + (recs.flatMap (recOutcomes fs inRoot outRoot relax thr)).countP (fun o => o == .warn)) := by
  intro recs
  induction recs with
  | nil => intro a b; simp
  | cons rec t ih =>
    intro a b
    rw [List.foldl_cons, ih]
    simp only [List.flatMap_cons, List.countP_append, recOutcomes, List.countP_cons,
      List.countP_nil, Prod.mk.injEq]
    constructor <;>
      · cases h1 : checkSrc fs inRoot relax thr rec <;>
          cases h2 : checkDst fs outRoot relax thr rec <;> simp <;> omega

/-- C6.  For every crossref record the v1.6 verifier re-hashes the live file
at each recorded location: an exact-hash match is a pass; on a mismatch it
recomputes the perceptual hash and compares its bit-difference distance to
the recorded digest against the threshold — within the threshold a warning,
beyond it (or when no perceptual comparison is possible) a hard error; a
file that cannot be located is an error; the run processes every record
regardless of earlier failures and its final `(errors, warnings)` counters
are exactly the number of error and warning outcomes over all records (so
passes are the remaining checks). -/
theorem crossref_verifier_pass_warn_fail (fs : FS) (inRoot outRoot : String)
    (relax : Bool) (thr : Nat) (recs : List CrossRec) :
    (crossrefCounts fs inRoot outRoot relax thr recs =
      ((recs.flatMap (recOutcomes fs inRoot outRoot relax thr)).countP (fun o => o == .error),
       (recs.flatMap (recOutcomes fs inRoot outRoot relax thr)).countP (fun o => o == .warn))) ∧
    (∀ rec : CrossRec, ∀ f : FileV, resolveSrc fs inRoot relax rec = some f →
      checkSrc fs inRoot relax thr rec = hashOutcome f rec.original_sha256 rec.original_dhash thr) ∧
    (∀ rec : CrossRec, resolveSrc fs inRoot relax rec = none →
      checkSrc fs inRoot relax thr rec = .error) ∧
    (∀ rec : CrossRec, ∀ f : FileV, resolveDst fs outRoot relax rec = some f →
      checkDst fs outRoot relax thr rec = hashOutcome f rec.blinded_sha256 rec.blinded_dhash thr) ∧
    (∀ rec : CrossRec, resolveDst fs outRoot relax rec = none →
      checkDst fs outRoot relax thr rec = .error) ∧
    (∀ (f : FileV) (recSha recDh : String), f.sha = recSha →
      hashOutcome f recSha recDh thr = .pass) ∧
    (∀ (f : FileV) (recSha recDh : String) (d : String), f.sha ≠ recSha → f.dh = some d →
      recDh ≠ "" → dhash_hamming d recDh ≤ thr →
      hashOutcome f recSha recDh thr = .warn) ∧
    (∀ (f : FileV) (recSha recDh : String) (d : String), f.sha ≠ recSha → f.dh = some d →
      thr < dhash_hamming d recDh → hashOutcome f recSha recDh thr = .error) ∧
    (∀ (f : FileV) (recSha recDh : String), f.sha ≠ recSha → f.dh = none →
      hashOutcome f recSha recDh thr = .error) := by
  refine ⟨?_, ?_, ?_, ?_, ?_, ?_, ?_, ?_, ?_⟩
  · show (recs.foldl _ ((0 : Nat), (0 : Nat))) = _
    rw [crossrefCounts_go fs inRoot outRoot relax thr recs 0 0]
    simp
  · intro rec f h
    unfold checkSrc
    rw [h]
  · intro rec h
    unfold checkSrc
    rw [h]
  · intro rec f h
    unfold checkDst
    rw [h]
  · intro rec h
    unfold checkDst
    rw [h]
  · intro f recSha recDh h
    unfold hashOutcome
    rw [if_pos (by simpa using h)]
  · intro f recSha recDh d h1 h2 h3 h4
    unfold hashOutcome
    rw [if_neg (by simpa using h1), h2]
    simp [h3, h4]
  · intro f recSha recDh d h1 h2 h3
    unfold hashOutcome
    rw [if_neg (by simpa using h1), h2]
    have hf : ¬ dhash_hamming d recDh ≤ thr := by omega
    simp [hf]
  · intro f recSha recDh h1 h2
    unfold hashOutcome
    rw [if_neg (by simpa using h1), h2]

theorem crossref_verifier_pass_warn_fail_witness :
    crossrefCounts fsC6 "in" "out" false 6 [recC6] = (0, 1) ∧
    checkSrc fsC6 "in" false 6 recC6 =
      hashOutcome fC6src recC6.original_sha256 recC6.original_dhash 6 ∧
    hashOutcome fC6src recC6.original_sha256 recC6.original_dhash 6 = .pass ∧
    hashOutcome fC6dst recC6.blinded_sha256 recC6.blinded_dhash 6 = .warn := by
  have h := crossref_verifier_pass_warn_fail fsC6 "in" "out" false 6 [recC6]
  refine ⟨h.1.trans (by decide), ?_, ?_, ?_⟩
  · exact h.2.1 recC6 fC6src (by decide)
  · exact h.2.2.2.2.2.1 fC6src recC6.original_sha256 recC6.original_dhash (by decide)
  · exact h.2.2.2.2.2.2.1 fC6dst recC6.blinded_sha256 recC6.blinded_dhash
      "0000000000000003" (by decide) rfl (by decide) (by decide)

/-! ### C8 — bundle self-verification -/

theorem updateAt_append_left (i : Nat) (f : α → α) (l1 l2 : List α) (h : i < l1.length) :
    updateAt i f (l1 ++ l2) = updateAt i f l1 ++ l2 := by
  induction l1 generalizing i with
  | nil => simp at h
  | cons x t ih =>
    cases i with
    | zero => rfl
    | succ i =>
      show x :: updateAt i f (t ++ l2) = x :: (updateAt i f t ++ l2)
      rw [ih i (by simpa using h)]

theorem nameToInfo_acc (arc : String) (l : List (String × ZEntry)) :
    ∀ acc : Option ZEntry,
      l.foldl (fun a m => if m.1 == arc then some m.2 else a) acc =
      match l.foldl (fun a m => if m.1 == arc then some m.2 else a) none with
      | some e => some e
      | none => acc := by
  induction l with
  | nil => intro acc; rfl
  | cons x t ih =>
    intro acc
    simp only [List.foldl_cons]
    rw [ih (if x.1 == arc then some x.2 else acc),
      ih (if x.1 == arc then some x.2 else none)]
    cases ht : t.foldl (fun a m => if m.1 == arc then some m.2 else a) none with
    | some e => rfl
    | none => cases hx : x.1 == arc with | true => rfl | false => rfl

theorem nameToInfo_append (l1 l2 : List (String × ZEntry)) (arc : String) :
    nameToInfo (l1 ++ l2) arc =
      match nameToInfo l2 arc with
      | some e => some e
      | none => nameToInfo l1 arc := by
  unfold nameToInfo
  rw [List.foldl_append]
  exact nameToInfo_acc arc l2 _

theorem nameToInfo_singleton (x : String × ZEntry) (arc : String) :
    nameToInfo [x] arc = if x.1 == arc then some x.2 else none := rfl

theorem nameToInfo_cons (x : String × ZEntry) (t : List (String × ZEntry)) (arc : String) :
    nameToInfo (x :: t) arc =
      match nameToInfo t arc with
      | some e => some e
      | none => if x.1 == arc then some x.2 else none := by
  show (x :: t).foldl (fun a m => if m.1 == arc then some m.2 else a) none = _
  simp only [List.foldl_cons]
  exact nameToInfo_acc arc t _

theorem nameToInfo_not_mem (l : List (String × ZEntry)) (arc : String)
    (h : arc ∉ l.map Prod.fst) : nameToInfo l arc = none := by
  induction l with
  | nil => rfl
  | cons x t ih =>
    rw [List.map_cons, List.mem_cons] at h
    push_neg at h
    rw [nameToInfo_cons, ih h.2]
    have hb : (x.1 == arc) = false := by
      simp only [beq_eq_false_iff_ne, ne_eq]
      exact fun hc => h.1 hc.symm
    rw [hb]
    rfl

theorem nameToInfo_map_bytes (files : List (String × List Nat)) (q : String × List Nat)
    (hnd : (files.map Prod.fst).Nodup) (hq : q ∈ files) :
    nameToInfo (files.map (fun p => (p.1, ZEntry.bytes p.2))) q.1 =
      some (ZEntry.bytes q.2) := by
  induction files with
  | nil => simp at hq
  | cons p t ih =>
    rw [List.map_cons, List.nodup_cons] at hnd
    rw [List.map_cons, nameToInfo_cons]
    rcases List.mem_cons.mp hq with h | h
    · subst h
      rw [nameToInfo_not_mem _ _ (by simpa using hnd.1)]
      simp
    · rw [ih hnd.2 h]

theorem zfReadData_pack (files : List (String × List Nat)) (man : List (String × String))
    (q : String × List Nat) (hnd : (files.map Prod.fst).Nodup) (hq : q ∈ files)
    (hq2 : q.1 ≠ "MANIFEST.json") :
    zfReadData (files.map (fun p => (p.1, ZEntry.bytes p.2)) ++
        [("MANIFEST.json", ZEntry.manifest man)]) q.1 = some q.2 := by
  unfold zfReadData
  have hN : nameToInfo [("MANIFEST.json", ZEntry.manifest man)] q.1 = none := by
    rw [nameToInfo_singleton]
    simp [Ne.symm hq2]
  rw [nameToInfo_append, hN, nameToInfo_map_bytes files q hnd hq]

theorem readManifest_pack (files : List (String × List Nat)) (man : List (String × String)) :
    readManifest (files.map (fun p => (p.1, ZEntry.bytes p.2)) ++
        [("MANIFEST.json", ZEntry.manifest man)]) = some man := by
  unfold readManifest
  have hN : nameToInfo [("MANIFEST.json", ZEntry.manifest man)] "MANIFEST.json" =
      some (ZEntry.manifest man) := by
    rw [nameToInfo_singleton]
    simp
  rw [nameToInfo_append, hN]

theorem scanManifest_cons (zip : Zip) (a h : String) (t : List (String × String)) :
    scanManifest zip ((a, h) :: t) =
      match zfReadData zip a with
      | none => none
      | some b =>
        match scanManifest zip t with
        | none => none
        | some rest => some (if sha256HexB b != h then a :: rest else rest) := rfl

theorem scanManifest_pairs (zip : Zip) (orig : List (String × List Nat)) :
    ∀ cur : List (String × List Nat),
      orig.map Prod.fst = cur.map Prod.fst →
      (∀ q ∈ cur, zfReadData zip q.1 = some q.2) →
      scanManifest zip (manifestOf orig) =
        some (((orig.zip cur).filter
          (fun pq => sha256HexB pq.2.2 != sha256HexB pq.1.2)).map (fun pq => pq.1.1)) := by
  induction orig with
  | nil => intro cur _ _; rfl
  | cons p t ih =>
    intro cur hnames hread
    cases cur with
    | nil => simp at hnames
    | cons q ct =>
      simp only [List.map_cons, List.cons.injEq] at hnames
      obtain ⟨hpq, htc⟩ := hnames
      have hq : zfReadData zip p.1 = some q.2 := by
        rw [hpq]; exact hread q (List.mem_cons_self q ct)
      show scanManifest zip ((p.1, sha256HexB p.2) :: manifestOf t) = _
      rw [scanManifest_cons, hq,
        ih ct htc (fun r hr => hread r (List.mem_cons_of_mem q hr))]
      rw [List.zip_cons_cons, List.filter_cons]
      dsimp only
      cases hc : sha256HexB q.2 != sha256HexB p.2 with
      | true => simp
      | false => simp

theorem zip_self_filter_sha (l : List (String × List Nat)) :
    ((l.zip l).filter (fun pq => sha256HexB pq.2.2 != sha256HexB pq.1.2)) = [] := by
  induction l with
  | nil => rfl
  | cons x t ih => simp [List.zip_cons_cons, List.filter_cons, ih]

theorem filter_zip_updateAt_sha (g : (String × List Nat) → (String × List Nat))
    (l : List (String × List Nat)) :
    ∀ (i : Nat) (x : String × List Nat), l[i]? = some x →
      (sha256HexB (g x).2 != sha256HexB x.2) = true →
      (((l.zip (updateAt i g l)).filter
        (fun pq => sha256HexB pq.2.2 != sha256HexB pq.1.2)).map (fun pq => pq.1.1)) = [x.1] := by
  induction l with
  | nil => intro i x h; simp at h
  | cons y t ih =>
    intro i x hget hne
    cases i with
    | zero =>
      rw [List.getElem?_cons_zero, Option.some.injEq] at hget
      subst hget
      show (((y :: t).zip (g y :: t)).filter _).map _ = [y.1]
      rw [List.zip_cons_cons, List.filter_cons]
      simp [hne, zip_self_filter_sha]
    | succ i =>
      rw [List.getElem?_cons_succ] at hget
      show (((y :: t).zip (y :: updateAt i g t)).filter _).map _ = [x.1]
      rw [List.zip_cons_cons, List.filter_cons]
      simp only [bne_self_eq_false, if_false]
      exact ih i x hget hne

theorem verifyPosthoc_ok (zip : Zip) (m : List (String × String)) (ms : List String)
    (h1 : readManifest zip = some m) (h2 : scanManifest zip m = some ms) :
    verifyPosthoc zip = .ok ms := by
  unfold verifyPosthoc
  rw [h1]
  show (match scanManifest zip m with
    | none => VResult.crashed
    | some ms2 => VResult.ok ms2) = VResult.ok ms
  rw [h2]

theorem bundleFlip_pack (files : List (String × List Nat)) (man : List (String × String))
    (j v : Nat) :
    ∀ i, i < files.length →
      bundleFlip (files.map (fun p => (p.1, ZEntry.bytes p.2)) ++
          [("MANIFEST.json", ZEntry.manifest man)]) i j v =
        (updateAt i (fun p => (p.1, List.set p.2 j v)) files).map
          (fun p => (p.1, ZEntry.bytes p.2)) ++
        [("MANIFEST.json", ZEntry.manifest man)] := by
  induction files with
  | nil => intro i hi; simp at hi
  | cons p t ih =>
    intro i hi
    cases i with
    | zero => rfl
    | succ i =>
      show (p.1, ZEntry.bytes p.2) ::
          bundleFlip (t.map (fun p => (p.1, ZEntry.bytes p.2)) ++
            [("MANIFEST.json", ZEntry.manifest man)]) i j v = _
      rw [ih i (by simpa using hi)]
      rfl

set_option maxHeartbeats 1600000

/-- C8.  `cmd_package_unblinding` writes `MANIFEST.json` — the arcname and
SHA-256 of every data member, in member order — as the final archive member;
on a bundle whose arcnames are distinct and include no data member named
`MANIFEST.json`, `cmd_verify_posthoc` re-reads the stored manifest,
recomputes each listed member's SHA-256 from the bytes stored in the
archive, and reports no mismatch on the fresh bundle; flipping a byte of any
data member so that its SHA-256 changes makes the verifier report exactly
that member's arcname. -/
theorem bundle_self_verification
    (bp pp rg am ac em : Option (List Nat)) (rcpts prov : List (String × List Nat))
    (csvB rptB : List Nat) (i j v : Nat) (arc : String) (b : List Nat)
    (hnd : ((packageFiles bp pp rg am ac em rcpts prov csvB rptB).map Prod.fst).Nodup)
    (hno : "MANIFEST.json" ∉ (packageFiles bp pp rg am ac em rcpts prov csvB rptB).map Prod.fst) :
    (packageBundle bp pp rg am ac em rcpts prov csvB rptB).getLast? =
      some ("MANIFEST.json",
        ZEntry.manifest (manifestOf (packageFiles bp pp rg am ac em rcpts prov csvB rptB))) ∧
    readManifest (packageBundle bp pp rg am ac em rcpts prov csvB rptB) =
      some (manifestOf (packageFiles bp pp rg am ac em rcpts prov csvB rptB)) ∧
    (manifestOf (packageFiles bp pp rg am ac em rcpts prov csvB rptB)).map Prod.fst =
      (packageFiles bp pp rg am ac em rcpts prov csvB rptB).map Prod.fst ∧
    verifyPosthoc (packageBundle bp pp rg am ac em rcpts prov csvB rptB) = .ok [] ∧
    ((packageFiles bp pp rg am ac em rcpts prov csvB rptB)[i]? = some (arc, b) →
      (sha256HexB (List.set b j v) != sha256HexB b) = true →
      verifyPosthoc (bundleFlip (packageBundle bp pp rg am ac em rcpts prov csvB rptB) i j v) =
        .ok [arc]) := by
  have hbundle : packageBundle bp pp rg am ac em rcpts prov csvB rptB =
      (packageFiles bp pp rg am ac em rcpts prov csvB rptB).map
        (fun p => (p.1, ZEntry.bytes p.2)) ++
      [("MANIFEST.json",
        ZEntry.manifest (manifestOf (packageFiles bp pp rg am ac em rcpts prov csvB rptB)))] := rfl
  refine ⟨?_, ?_, ?_, ?_, ?_⟩
  · rw [hbundle]
    exact List.getLast?_concat _
  · rw [hbundle]
    exact readManifest_pack _ _
  · simp [manifestOf]
  · refine verifyPosthoc_ok _ _ _ (by rw [hbundle]; exact readManifest_pack _ _) ?_
    rw [hbundle, scanManifest_pairs _ _ _ rfl
        (fun q hq => zfReadData_pack _ _ q hnd hq
          (fun hc => hno (hc ▸ List.mem_map_of_mem Prod.fst hq))),
      zip_self_filter_sha]
    rfl
  · intro hget hne
    have hi : i < (packageFiles bp pp rg am ac em rcpts prov csvB rptB).length :=
      (List.getElem?_eq_some.mp hget).1
    have hflip := bundleFlip_pack (packageFiles bp pp rg am ac em rcpts prov csvB rptB)
      (manifestOf (packageFiles bp pp rg am ac em rcpts prov csvB rptB)) j v i hi
    have hnames : (updateAt i (fun p => (p.1, List.set p.2 j v))
        (packageFiles bp pp rg am ac em rcpts prov csvB rptB)).map Prod.fst =
        (packageFiles bp pp rg am ac em rcpts prov csvB rptB).map Prod.fst :=
      map_updateAt_eq _ _ _ _ (fun _ => rfl)
    refine verifyPosthoc_ok _
      (manifestOf (packageFiles bp pp rg am ac em rcpts prov csvB rptB)) _ ?_ ?_
    · rw [hbundle, hflip]
      exact readManifest_pack _ _
    · rw [hbundle, hflip,
        scanManifest_pairs _ _ _ hnames.symm
          (fun q hq => zfReadData_pack _ _ q (by rw [hnames]; exact hnd) hq
            (fun hc => hno (hnames ▸ (hc ▸ List.mem_map_of_mem Prod.fst hq)))),
        filter_zip_updateAt_sha _ _ i (arc, b) hget hne]

theorem bundle_self_verification_witness :
    verifyPosthoc (packageBundle none none none none none none [] [] [48] [49]) = .ok [] ∧
    verifyPosthoc
        (bundleFlip (packageBundle none none none none none none [] [] [48] [49]) 0 0 0) =
      .ok ["reports/reconciliation.csv"] := by
  have h := bundle_self_verification none none none none none none [] [] [48] [49] 0 0 0
    "reports/reconciliation.csv" [48] (by decide) (by decide)
  exact ⟨h.2.2.2.1, h.2.2.2.2 (by decide) (by decide)⟩

/-! ### C10 — verification covers only manifest entries -/

theorem readManifest_append_fresh (zip : List (String × ZEntry)) (x : String × ZEntry)
    (hx : x.1 ≠ "MANIFEST.json") : readManifest (zip ++ [x]) = readManifest zip := by
  unfold readManifest
  have hN : nameToInfo [x] "MANIFEST.json" = none := by
    rw [nameToInfo_singleton]
    simp [hx]
  rw [nameToInfo_append, hN]

theorem zfReadData_append_fresh (zip : List (String × ZEntry)) (arc : String)
    (x : String × ZEntry) (hx : x.1 ≠ arc) :
    zfReadData (zip ++ [x]) arc = zfReadData zip arc := by
  unfold zfReadData
  have hN : nameToInfo [x] arc = none := by
    rw [nameToInfo_singleton]
    simp [hx]
  rw [nameToInfo_append, hN]

theorem scanManifest_append_fresh (zip : List (String × ZEntry)) (x : String × ZEntry) :
    ∀ m : List (String × String), x.1 ∉ m.map Prod.fst →
      scanManifest (zip ++ [x]) m = scanManifest zip m := by
  intro m
  induction m with
  | nil => intro h; rfl
  | cons e t ih =>
    intro h
    rw [List.map_cons, List.mem_cons] at h
    push_neg at h
    rw [scanManifest_cons, scanManifest_cons,
      zfReadData_append_fresh _ _ _ h.1, ih h.2]

theorem scanManifest_mem (zip : Zip) :
    ∀ (m : List (String × String)) (ms : List String),
      scanManifest zip m = some ms →
      ∀ arc, arc ∈ ms ↔
        ∃ h, (arc, h) ∈ m ∧ ∃ b, zfReadData zip arc = some b ∧ sha256HexB b ≠ h := by
  intro m
  induction m with
  | nil =>
    intro ms h arc
    have hms : ([] : List String) = ms := Option.some.inj h
    subst hms
    simp
  | cons e t ih =>
    intro ms h arc
    rw [scanManifest_cons] at h
    cases hr : zfReadData zip e.1 with
    | none => rw [hr] at h; simp at h
    | some b =>
      rw [hr] at h
      cases hs : scanManifest zip t with
      | none => rw [hs] at h; simp at h
      | some rest =>
        rw [hs] at h
        have hms : (if sha256HexB b != e.2 then e.1 :: rest else rest) = ms :=
          Option.some.inj h
        subst hms
        have hih := ih rest hs arc
        by_cases hc : sha256HexB b = e.2
        · rw [if_neg (by simp [hc])]
          constructor
          · intro hmem
            obtain ⟨h2, hm2, b2, hrb2, hne2⟩ := hih.mp hmem
            exact ⟨h2, List.mem_cons_of_mem _ hm2, b2, hrb2, hne2⟩
          · intro hex
            obtain ⟨h2, hm2, b2, hrb2, hne2⟩ := hex
            rcases List.mem_cons.mp hm2 with heq | hm3
            · have harc : arc = e.1 := congrArg Prod.fst heq
              have hh2 : h2 = e.2 := congrArg Prod.snd heq
              subst harc
              subst hh2
              rw [hr] at hrb2
              have hb : b = b2 := Option.some.inj hrb2
              subst hb
              exact absurd hc hne2
            · exact hih.mpr ⟨h2, hm3, b2, hrb2, hne2⟩
        · rw [if_pos (by simp [hc])]
          constructor
          · intro hmem
            rcases List.mem_cons.mp hmem with heq | hmem2
            · subst heq
              exact ⟨e.2, List.mem_cons_self _ _, b, hr, hc⟩
            · obtain ⟨h2, hm2, b2, hrb2, hne2⟩ := hih.mp hmem2
              exact ⟨h2, List.mem_cons_of_mem _ hm2, b2, hrb2, hne2⟩
          · intro hex
            obtain ⟨h2, hm2, b2, hrb2, hne2⟩ := hex
            rcases List.mem_cons.mp hm2 with heq | hm3
            · have harc : arc = e.1 := congrArg Prod.fst heq
              exact List.mem_cons.mpr (Or.inl harc)
            · exact List.mem_cons_of_mem _ (hih.mpr ⟨h2, hm3, b2, hrb2, hne2⟩)

/-- C10 counterexample.  `zipfile` resolves duplicate names to the LAST
occurrence, so a member appended after packaging whose name matches a
manifest-listed arcname shadows the original bytes: this archive verifies
clean, but after appending `("a", bytes [49])` the verifier re-reads the
appended bytes in place of the listed ones and reports `a` as mismatched —
a file added to the archive after packaging CAN cause a reported error. -/
theorem verification_append_shadow_cex :
    verifyPosthoc zipC10 = .ok [] ∧
    verifyPosthoc (zipC10 ++ [("a", ZEntry.bytes [49])]) = .ok ["a"] :=
  ⟨by decide, by decide⟩

/-- C10 (amended).  `cmd_verify_posthoc` checks exactly the entries listed
in the stored manifest: a run that loads the manifest and reads every
listed member reports as mismatched precisely the arcnames for which some
manifest entry's resolved stored bytes hash differently from the recorded
digest, and an arcname absent from the manifest is never reported.
Appending an archive member whose name differs from every listed arcname
and from `MANIFEST.json` leaves the verdict unchanged; since `zipfile`
resolves duplicate names to the last occurrence, this freshness condition
is necessary — an appended member named like a listed arcname shadows the
listed bytes and can cause a reported mismatch. -/
theorem verification_covers_only_manifest (zip : List (String × ZEntry))
    (m : List (String × String)) (ms : List String) (x : String × ZEntry)
    (h1 : readManifest zip = some m) (h2 : scanManifest zip m = some ms)
    (hx1 : x.1 ∉ m.map Prod.fst) (hx2 : x.1 ≠ "MANIFEST.json") :
    verifyPosthoc zip = .ok ms ∧
    verifyPosthoc (zip ++ [x]) = .ok ms ∧
    (∀ arc, arc ∈ ms ↔
      ∃ h, (arc, h) ∈ m ∧ ∃ b, zfReadData zip arc = some b ∧ sha256HexB b ≠ h) ∧
    (∀ arc, arc ∉ m.map Prod.fst → arc ∉ ms) := by
  refine ⟨verifyPosthoc_ok _ _ _ h1 h2, ?_, scanManifest_mem zip m ms h2, ?_⟩
  · refine verifyPosthoc_ok _ m _ ?_ ?_
    · rw [readManifest_append_fresh _ _ hx2]
      exact h1
    · rw [scanManifest_append_fresh _ _ _ hx1]
      exact h2
  · intro arc hnm hmem
    obtain ⟨h, hm, _⟩ := (scanManifest_mem zip m ms h2 arc).mp hmem
    exact hnm (List.mem_map_of_mem Prod.fst hm)

theorem verification_covers_only_manifest_witness :
    verifyPosthoc zipC10 = .ok [] ∧
    verifyPosthoc (zipC10 ++ [("extra", ZEntry.bytes [1, 2, 3])]) = .ok [] ∧
    "extra" ∉ ([] : List String) := by
  have h := verification_covers_only_manifest zipC10 [("a", sha256HexB [48])] []
    ("extra", ZEntry.bytes [1, 2, 3]) (by decide) (by decide) (by decide) (by decide)
  exact ⟨h.1, h.2.1, h.2.2.2 "extra" (by decide)⟩
